import Mathlib

/-!
# Verification of the GitHub activity-based README generator

A shallow embedding, in Lean 4, of the core of a small JavaScript service that
fetches a GitHub user's public activity, derives aggregate statistics
(`analyzeEvents`, `fetchContributionStats`), synthesizes a human-readable
summary (`generateActivitySummary`), renders SVG cards
(`generateActivityCard`, `generateLanguagesCard`), and serves the result
behind a validating HTTP handler.

Modelling conventions, used throughout:

* JavaScript objects used as string-keyed counter maps are modelled as
  insertion-ordered association lists (`List (String × Nat)`).  Key
  enumeration (`Object.keys` / `Object.entries`) follows insertion order;
  the special reordering JavaScript applies to canonical array-index keys
  never arises for the keys this program uses (event type names, repository
  names, `YYYY-MM-DD` date keys, language names), so it is not modelled.
* Machine numbers that are always small non-negative integers in the source
  (counts, sizes, hours) are modelled as `Nat`; signed day arithmetic uses
  `Int`.
* `new Date(string)` is modelled by a parser for the ISO date / date-time
  shapes that actually flow through the program (`YYYY-MM-DD` and
  `YYYY-MM-DDTHH:MM:SSZ`, the GitHub API timestamp format); every other
  string is modelled as an invalid date (`none`), matching `NaN` semantics.
  The host timezone is taken to be UTC (the deployment target), so
  `getHours()` is the UTC hour of the timestamp.
* Fallible dynamic values (`undefined`, `NaN`) are modelled with `Option`
  or with an explicit dynamic-value type (`JsVal`) where a function is
  applied to values of the "wrong" runtime type.
-/

/-! ## JavaScript string ordering

`Array.prototype.sort()` with the default comparator compares strings by
UTF-16 code units.  All strings sorted by this program are ASCII date keys,
for which code-unit order coincides with code-point order, so we compare
`Char` code points. -/

/-- Strict code-unit comparison of two characters, as used by the default
JavaScript string comparison. -/
def chLt (a b : Char) : Bool := a.toNat < b.toNat

/-- Strict lexicographic order on character lists: the order `<` of
JavaScript's default string sort. -/
def lexLt : List Char → List Char → Bool
  | [], [] => false
  | [], _ :: _ => true
  | _ :: _, [] => false
  | a :: as, b :: bs => if chLt a b then true else if chLt b a then false else lexLt as bs

theorem lexLt_cons (a b : Char) (as bs : List Char) :
    lexLt (a :: as) (b :: bs) =
      (if a.toNat < b.toNat then true
       else if b.toNat < a.toNat then false
       else lexLt as bs) := by
  simp [lexLt, chLt]

theorem lexLt_asymm {as bs : List Char} (h : lexLt as bs = true) : lexLt bs as = false := by
  induction as generalizing bs with
  | nil =>
    cases bs with
    | nil => simp [lexLt] at h
    | cons b bs => simp [lexLt]
  | cons a as ih =>
    cases bs with
    | nil => simp [lexLt] at h
    | cons b bs =>
      rw [lexLt_cons] at h ⊢
      split_ifs at h ⊢ with h1 h2 h3 h4
      all_goals first
        | rfl
        | omega
        | exact ih h
        | simp_all

theorem lexLt_trans {as bs cs : List Char} (h1 : lexLt as bs = true)
    (h2 : lexLt bs cs = true) : lexLt as cs = true := by
  induction as generalizing bs cs with
  | nil =>
    cases bs with
    | nil => simp [lexLt] at h1
    | cons b bs =>
      cases cs with
      | nil => simp [lexLt] at h2
      | cons c cs => simp [lexLt]
  | cons a as ih =>
    cases bs with
    | nil => simp [lexLt] at h1
    | cons b bs =>
      cases cs with
      | nil => simp [lexLt] at h2
      | cons c cs =>
        rw [lexLt_cons] at h1 h2 ⊢
        split_ifs at h1 h2 ⊢
        all_goals first
          | rfl
          | omega
          | exact ih h1 h2
          | simp_all

/-- Insert a string into a (sorted) list, before the first strictly greater
element.  Together with `sortStrings` this models the effect of
`Array.prototype.sort()` on an array of distinct strings: the unique
ascending reordering. -/
def insertStr (x : String) : List String → List String
  | [] => [x]
  | y :: ys => if lexLt x.data y.data then x :: y :: ys else y :: insertStr x ys

/-- `Array.prototype.sort()` (default string comparator) on distinct
strings. -/
def sortStrings (l : List String) : List String := l.foldr insertStr []

theorem mem_insertStr {x s : String} {l : List String} :
    s ∈ insertStr x l ↔ s = x ∨ s ∈ l := by
  induction l with
  | nil => simp [insertStr]
  | cons y ys ih =>
    simp only [insertStr]
    by_cases h : lexLt x.data y.data = true
    · rw [if_pos h]; simp
    · rw [if_neg h]
      simp [List.mem_cons, ih]
      tauto

theorem mem_sortStrings {s : String} {l : List String} :
    s ∈ sortStrings l ↔ s ∈ l := by
  induction l with
  | nil => simp [sortStrings]
  | cons y ys ih =>
    simp only [sortStrings, List.foldr_cons] at *
    rw [mem_insertStr, ih]
    simp

/-- The output of `sortStrings` is pairwise non-descending: no later element
is strictly below an earlier one. -/
theorem pairwise_insertStr {x : String} {l : List String}
    (h : l.Pairwise (fun a b => lexLt b.data a.data = false)) :
    (insertStr x l).Pairwise (fun a b => lexLt b.data a.data = false) := by
  induction l with
  | nil => simp [insertStr]
  | cons y ys ih =>
    simp only [insertStr]
    rcases List.pairwise_cons.mp h with ⟨hy, hys⟩
    by_cases hxy : lexLt x.data y.data = true
    · rw [if_pos hxy]
      refine List.pairwise_cons.mpr ⟨?_, h⟩
      intro b hb
      rcases List.mem_cons.mp hb with hb | hb
      · subst hb; exact lexLt_asymm hxy
      · have hyb := hy b hb
        by_contra hcon
        have hbx : lexLt b.data x.data = true := by
          cases hbx : lexLt b.data x.data with
          | true => rfl
          | false => simp [hbx] at hcon
        have : lexLt b.data y.data = true := lexLt_trans hbx hxy
        rw [this] at hyb; cases hyb
    · rw [if_neg hxy]
      refine List.pairwise_cons.mpr ⟨?_, ih hys⟩
      intro b hb
      rcases mem_insertStr.mp hb with hb | hb
      · subst hb
        simpa using hxy
      · exact hy b hb

theorem pairwise_sortStrings {l : List String} :
    (sortStrings l).Pairwise (fun a b => lexLt b.data a.data = false) := by
  induction l with
  | nil => simp [sortStrings]
  | cons y ys ih => exact pairwise_insertStr ih

theorem nodup_insertStr {x : String} {l : List String} (hx : x ∉ l) (h : l.Nodup) :
    (insertStr x l).Nodup := by
  induction l with
  | nil => simp [insertStr]
  | cons y ys ih =>
    simp only [insertStr]
    rcases List.nodup_cons.mp h with ⟨hy, hys⟩
    by_cases hxy : lexLt x.data y.data = true
    · rw [if_pos hxy]
      exact List.nodup_cons.mpr ⟨hx, h⟩
    · rw [if_neg hxy]
      refine List.nodup_cons.mpr ⟨?_, ih (fun hm => hx (List.mem_cons_of_mem _ hm)) hys⟩
      intro hmem
      rcases mem_insertStr.mp hmem with h1 | h1
      · exact hx (h1 ▸ List.mem_cons_self y ys)
      · exact hy h1

theorem nodup_sortStrings {l : List String} (h : l.Nodup) : (sortStrings l).Nodup := by
  induction l with
  | nil => simp [sortStrings]
  | cons y ys ih =>
    rcases List.nodup_cons.mp h with ⟨hy, hys⟩
    simp only [sortStrings, List.foldr_cons]
    exact nodup_insertStr (fun hm => hy (mem_sortStrings.mp hm)) (ih hys)

/-! ## Digits and decimal values -/

/-- ASCII digit test. -/
def isDigitCh (c : Char) : Bool := 48 ≤ c.toNat && c.toNat ≤ 57

/-- Value of an ASCII digit character. -/
def dvalC (c : Char) : Nat := c.toNat - 48

/-- Decimal value of a digit-character list (most significant first). -/
def dvalL (l : List Char) : Nat := l.foldl (fun acc c => 10 * acc + dvalC c) 0

theorem dvalL_nil : dvalL [] = 0 := rfl

theorem dvalL_aux (l : List Char) : ∀ a : Nat,
    l.foldl (fun acc c => 10 * acc + dvalC c) a = a * 10 ^ l.length + dvalL l := by
  induction l with
  | nil => intro a; simp [dvalL]
  | cons c cs ih =>
    intro a
    simp only [List.foldl_cons, dvalL] at *
    rw [ih (10 * a + dvalC c), ih (10 * 0 + dvalC c)]
    ring_nf
    simp [List.length_cons, pow_succ]
    ring

theorem dvalL_cons (c : Char) (cs : List Char) :
    dvalL (c :: cs) = dvalC c * 10 ^ cs.length + dvalL cs := by
  simp only [dvalL, List.foldl_cons]
  have := dvalL_aux cs (10 * 0 + dvalC c)
  simpa [dvalL] using this

theorem dvalL_lt (l : List Char) (h : ∀ c ∈ l, isDigitCh c = true) :
    dvalL l < 10 ^ l.length := by
  induction l with
  | nil => simp [dvalL]
  | cons c cs ih =>
    rw [dvalL_cons]
    have hc : isDigitCh c = true := h c (List.mem_cons_self _ _)
    have hd : dvalC c ≤ 9 := by
      simp [isDigitCh] at hc
      simp [dvalC]; omega
    have hrest := ih (fun d hd' => h d (List.mem_cons_of_mem _ hd'))
    have : dvalC c * 10 ^ cs.length ≤ 9 * 10 ^ cs.length :=
      Nat.mul_le_mul_right _ hd
    calc dvalC c * 10 ^ cs.length + dvalL cs
        < dvalC c * 10 ^ cs.length + 10 ^ cs.length := by omega
      _ ≤ 9 * 10 ^ cs.length + 10 ^ cs.length := by omega
      _ = 10 ^ (cs.length + 1) := by ring
      _ = 10 ^ (c :: cs).length := by simp

/-- Lexicographic comparison of two equal-length digit blocks (followed by
arbitrary tails) decides by decimal value, and recurses into the tails on
equality. -/
theorem lexLt_digits : ∀ (xs ys : List Char), xs.length = ys.length →
    (∀ c ∈ xs, isDigitCh c = true) → (∀ c ∈ ys, isDigitCh c = true) →
    ∀ r1 r2, lexLt (xs ++ r1) (ys ++ r2) =
      (if dvalL xs < dvalL ys then true
       else if dvalL ys < dvalL xs then false
       else lexLt r1 r2)
  | [], [], _, _, _ => by intro r1 r2; simp [dvalL]
  | [], y :: ys, h, _, _ => by simp at h
  | x :: xs, [], h, _, _ => by simp at h
  | x :: xs, y :: ys, h, hx, hy => by
    intro r1 r2
    have hlen : xs.length = ys.length := by simpa using h
    have hxd : isDigitCh x = true := hx x (List.mem_cons_self _ _)
    have hyd : isDigitCh y = true := hy y (List.mem_cons_self _ _)
    have hxs : ∀ c ∈ xs, isDigitCh c = true := fun c hc => hx c (List.mem_cons_of_mem _ hc)
    have hys : ∀ c ∈ ys, isDigitCh c = true := fun c hc => hy c (List.mem_cons_of_mem _ hc)
    have hxv : 48 ≤ x.toNat ∧ x.toNat ≤ 57 := by simpa [isDigitCh] using hxd
    have hyv : 48 ≤ y.toNat ∧ y.toNat ≤ 57 := by simpa [isDigitCh] using hyd
    have hxb := dvalL_lt xs hxs
    have hyb := dvalL_lt ys hys
    simp only [List.cons_append]
    rw [lexLt_cons, dvalL_cons, dvalL_cons, hlen]
    rcases Nat.lt_trichotomy x.toNat y.toNat with hlt | heq | hgt
    · rw [if_pos hlt]
      have hdv : dvalC x < dvalC y := by simp [dvalC]; omega
      have : dvalC x * 10 ^ ys.length + dvalL xs < dvalC y * 10 ^ ys.length + dvalL ys := by
        have h1 : dvalC x * 10 ^ ys.length + dvalL xs < (dvalC x + 1) * 10 ^ ys.length := by
          rw [hlen] at hxb; nlinarith
        have h2 : (dvalC x + 1) * 10 ^ ys.length ≤ dvalC y * 10 ^ ys.length :=
          Nat.mul_le_mul_right _ hdv
        omega
      rw [if_pos this]
    · have h1 : ¬ x.toNat < y.toNat := by omega
      have h2 : ¬ y.toNat < x.toNat := by omega
      rw [if_neg h1, if_neg h2]
      have hdv : dvalC x = dvalC y := by simp [dvalC]; omega
      rw [hdv]
      rw [lexLt_digits xs ys hlen hxs hys r1 r2]
      by_cases hc : dvalL xs < dvalL ys
      · rw [if_pos hc, if_pos (by omega)]
      · rw [if_neg hc]
        by_cases hc2 : dvalL ys < dvalL xs
        · rw [if_pos hc2, if_neg (by omega), if_pos (by omega)]
        · rw [if_neg hc2, if_neg (by omega), if_neg (by omega)]
    · rw [if_neg (by omega : ¬ x.toNat < y.toNat), if_pos hgt]
      have hdv : dvalC y < dvalC x := by simp [dvalC]; omega
      have : dvalC y * 10 ^ ys.length + dvalL ys < dvalC x * 10 ^ ys.length + dvalL xs := by
        have h1 : dvalC y * 10 ^ ys.length + dvalL ys < (dvalC y + 1) * 10 ^ ys.length := by
          nlinarith
        have h2 : (dvalC y + 1) * 10 ^ ys.length ≤ dvalC x * 10 ^ ys.length :=
          Nat.mul_le_mul_right _ hdv
        omega
      rw [if_neg (by omega), if_pos this]

/-- Digit characters with equal values are equal. -/
theorem digit_eq_of_dval_eq {a b : Char} (ha : isDigitCh a = true)
    (hb : isDigitCh b = true) (h : dvalC a = dvalC b) : a = b := by
  have ha' : 48 ≤ a.toNat ∧ a.toNat ≤ 57 := by simpa [isDigitCh] using ha
  have hb' : 48 ≤ b.toNat ∧ b.toNat ≤ 57 := by simpa [isDigitCh] using hb
  have : a.toNat = b.toNat := by simp [dvalC] at h; omega
  exact Char.eq_of_val_eq (UInt32.toNat.inj this)

/-! ## Proleptic Gregorian calendar, as computed by ECMAScript `MakeDay`

Day numbers count days since 0000-01-01 (proleptic Gregorian).  The
ECMAScript epoch offset is a constant, so it cancels in every day
difference the program computes and is irrelevant to the model. -/

/-- Gregorian leap-year test (`InLeapYear` of ECMAScript). -/
def isLeap (y : Nat) : Bool := (y % 4 = 0 && y % 100 != 0) || (y % 400 = 0)

/-- Days before month `m` (1-12) in a non-leap year (`DayWithinYear` table). -/
def daysBeforeMonth (m : Nat) : Nat :=
  match m with
  | 1 => 0 | 2 => 31 | 3 => 59 | 4 => 90 | 5 => 120 | 6 => 151 | 7 => 181
  | 8 => 212 | 9 => 243 | 10 => 273 | 11 => 304 | 12 => 334 | _ => 0

/-- Days before month `m` of year `y`, leap day included. -/
def daysBefore (y m : Nat) : Nat :=
  daysBeforeMonth m + (if isLeap y ∧ 3 ≤ m then 1 else 0)

/-- Length of month `m` (1-12) of year `y`. -/
def monthLen (y m : Nat) : Nat :=
  match m with
  | 1 => 31 | 2 => if isLeap y then 29 else 28 | 3 => 31 | 4 => 30 | 5 => 31
  | 6 => 30 | 7 => 31 | 8 => 31 | 9 => 30 | 10 => 31 | 11 => 30 | 12 => 31
  | _ => 0

/-- Number of leap years in `[0, y)`. -/
def leapsBefore (y : Nat) : Nat := (y + 3) / 4 - (y + 99) / 100 + (y + 399) / 400

/-- Day number of the civil date `y-m-d` (days since 0000-01-01).  For
`d > monthLen y m` this rolls over into the following months exactly as
ECMAScript `MakeDay` arithmetic does. -/
def dayNumber (y m d : Nat) : Nat := 365 * y + leapsBefore y + daysBefore y m + (d - 1)

theorem leapsBefore_succ (y : Nat) :
    leapsBefore (y + 1) = leapsBefore y + (if isLeap y then 1 else 0) := by
  simp only [leapsBefore, isLeap]
  split_ifs with h
  · simp only [Bool.or_eq_true, Bool.and_eq_true, decide_eq_true_eq, bne_iff_ne, ne_eq] at h
    omega
  · simp only [Bool.or_eq_true, Bool.and_eq_true, decide_eq_true_eq, bne_iff_ne, ne_eq] at h
    push_neg at h
    omega

theorem leapsBefore_mono {y y' : Nat} (h : y ≤ y') : leapsBefore y ≤ leapsBefore y' := by
  induction y' with
  | zero => simp_all
  | succ n ih =>
    rcases Nat.lt_or_ge y (n + 1) with h1 | h1
    · have := ih (by omega)
      rw [leapsBefore_succ]
      split_ifs <;> omega
    · have : y = n + 1 := by omega
      subst this; rfl

theorem leapsBefore_add_one_le {y y' : Nat} (h : y < y') :
    leapsBefore y + (if isLeap y then 1 else 0) ≤ leapsBefore y' := by
  calc leapsBefore y + (if isLeap y then 1 else 0) = leapsBefore (y + 1) :=
        (leapsBefore_succ y).symm
    _ ≤ leapsBefore y' := leapsBefore_mono (by omega)

/-- Within one year, a canonical date keeps `daysBefore + (d-1)` below the
year length. -/
theorem dayWithinYear_lt (y m d : Nat) (hm : 1 ≤ m ∧ m ≤ 12)
    (hd : 1 ≤ d ∧ d ≤ monthLen y m) :
    daysBefore y m + (d - 1) < 365 + (if isLeap y then 1 else 0) := by
  rcases hm with ⟨hm1, hm2⟩
  interval_cases m <;>
    simp_all [daysBefore, daysBeforeMonth, monthLen] <;>
    split_ifs at * <;> simp_all <;> omega

/-- `daysBefore` advances by at least the month length between months of the
same year. -/
theorem daysBefore_step (y m m' : Nat) (hm : 1 ≤ m ∧ m ≤ 12) (hm' : 1 ≤ m' ∧ m' ≤ 12)
    (h : m < m') (d : Nat) (hd : 1 ≤ d ∧ d ≤ monthLen y m) :
    daysBefore y m + (d - 1) < daysBefore y m' := by
  rcases hm with ⟨a1, a2⟩; rcases hm' with ⟨b1, b2⟩
  interval_cases m <;> interval_cases m' <;>
    simp_all [daysBefore, daysBeforeMonth, monthLen] <;>
    (try split_ifs at *) <;> (try simp_all) <;> omega

/-- Strict monotonicity of `dayNumber` on canonical dates, in lexicographic
order of `(y, m, d)`. -/
theorem dayNumber_strictMono {y m d y' m' d' : Nat}
    (hm : 1 ≤ m ∧ m ≤ 12) (hd : 1 ≤ d ∧ d ≤ monthLen y m)
    (hm' : 1 ≤ m' ∧ m' ≤ 12) (hd' : 1 ≤ d' ∧ d' ≤ monthLen y' m')
    (hlt : y < y' ∨ (y = y' ∧ (m < m' ∨ (m = m' ∧ d < d')))) :
    dayNumber y m d < dayNumber y' m' d' := by
  rcases hlt with hy | ⟨rfl, hm2 | ⟨rfl, hd2⟩⟩
  · have h1 := dayWithinYear_lt y m d hm hd
    have h2 := leapsBefore_add_one_le hy
    have h3 : daysBefore y' m' + (d' - 1) ≥ 0 := Nat.zero_le _
    simp only [dayNumber]
    have h365 : 365 * y + 365 ≤ 365 * y' := by
      have : y + 1 ≤ y' := hy
      calc 365 * y + 365 = 365 * (y + 1) := by ring
        _ ≤ 365 * y' := Nat.mul_le_mul_left _ this
    split_ifs at h1 h2 <;> omega
  · have h1 := daysBefore_step y m m' hm hm' hm2 d hd
    simp only [dayNumber]
    omega
  · simp only [dayNumber]
    omega

/-! ## `new Date(string)`: the ISO subset used by the program -/

/-- A parsed civil date. -/
structure DateTriple where
  year : Nat
  month : Nat
  day : Nat
deriving DecidableEq

/-- A parsed timestamp (UTC). -/
structure JsTimestamp where
  date : DateTriple
  hour : Nat
  minute : Nat
  second : Nat
deriving DecidableEq

/-- Parse the eight value characters of a date, with the range checks of the
ECMAScript Date Time String Format grammar (month 01-12, day 01-31; day
overflow beyond the month length is legal and rolls over in `dayNumber`). -/
def mkDate (y1 y2 y3 y4 mo1 mo2 dd1 dd2 : Char) : Option DateTriple :=
  if isDigitCh y1 && isDigitCh y2 && isDigitCh y3 && isDigitCh y4 &&
     isDigitCh mo1 && isDigitCh mo2 && isDigitCh dd1 && isDigitCh dd2 then
    if 1 ≤ dvalL [mo1, mo2] ∧ dvalL [mo1, mo2] ≤ 12 ∧
       1 ≤ dvalL [dd1, dd2] ∧ dvalL [dd1, dd2] ≤ 31 then
      some ⟨dvalL [y1, y2, y3, y4], dvalL [mo1, mo2], dvalL [dd1, dd2]⟩
    else none
  else none

/-- `new Date(s)` for a date-only string `YYYY-MM-DD`; `none` models an
invalid date (`NaN` time value). -/
def parseDateOnly (s : String) : Option DateTriple :=
  match s.data with
  | [y1, y2, y3, y4, c1, mo1, mo2, c2, dd1, dd2] =>
    if c1 = '-' ∧ c2 = '-' then mkDate y1 y2 y3 y4 mo1 mo2 dd1 dd2 else none
  | _ => none

/-- `new Date(s)` for the two timestamp shapes the program receives:
`YYYY-MM-DD` (midnight UTC) and `YYYY-MM-DDTHH:MM:SSZ` (the GitHub API
format).  Any other string is an invalid date. -/
def parseTimestamp (s : String) : Option JsTimestamp :=
  match s.data with
  | [y1, y2, y3, y4, c1, mo1, mo2, c2, dd1, dd2] =>
    if c1 = '-' ∧ c2 = '-' then
      (mkDate y1 y2 y3 y4 mo1 mo2 dd1 dd2).map (fun dt => ⟨dt, 0, 0, 0⟩)
    else none
  | [y1, y2, y3, y4, c1, mo1, mo2, c2, dd1, dd2, tc, h1, h2, c3, mi1, mi2, c4, sc1, sc2, zc] =>
    if c1 = '-' ∧ c2 = '-' ∧ tc = 'T' ∧ c3 = ':' ∧ c4 = ':' ∧ zc = 'Z' ∧
       isDigitCh h1 = true ∧ isDigitCh h2 = true ∧ isDigitCh mi1 = true ∧
       isDigitCh mi2 = true ∧ isDigitCh sc1 = true ∧ isDigitCh sc2 = true then
      if dvalL [h1, h2] ≤ 23 ∧ dvalL [mi1, mi2] ≤ 59 ∧ dvalL [sc1, sc2] ≤ 59 then
        (mkDate y1 y2 y3 y4 mo1 mo2 dd1 dd2).map
          (fun dt => ⟨dt, dvalL [h1, h2], dvalL [mi1, mi2], dvalL [sc1, sc2]⟩)
      else none
    else none
  | _ => none

/-- `s.split('T')[0]`: the longest `'T'`-free prefix of `s`. -/
def dateOf (s : String) : String := ⟨s.data.takeWhile (fun c => c ≠ 'T')⟩

/-- `new Date(s).getHours()` under a UTC host timezone; `none` models `NaN`. -/
def jsGetHours (s : String) : Option Nat := (parseTimestamp s).map (fun t => t.hour)

/-- A timestamp string that parses and whose civil date is canonical (the day
fits in the month, so no rollover). -/
def canonicalTs (s : String) : Bool :=
  match parseTimestamp s with
  | some t => t.date.day ≤ monthLen t.date.year t.date.month
  | none => false

/-- Day number of a date-only key string, as used in the streak walk. -/
def keyDay (s : String) : Option Nat :=
  (parseDateOnly s).map (fun t => dayNumber t.year t.month t.day)

theorem mkDate_inv {y1 y2 y3 y4 mo1 mo2 dd1 dd2 : Char} {t : DateTriple}
    (h : mkDate y1 y2 y3 y4 mo1 mo2 dd1 dd2 = some t) :
    (∀ c ∈ [y1, y2, y3, y4, mo1, mo2, dd1, dd2], isDigitCh c = true) ∧
    t.year = dvalL [y1, y2, y3, y4] ∧ t.month = dvalL [mo1, mo2] ∧
    t.day = dvalL [dd1, dd2] ∧
    1 ≤ t.month ∧ t.month ≤ 12 ∧ 1 ≤ t.day ∧ t.day ≤ 31 := by
  unfold mkDate at h
  split_ifs at h with h1 h2
  · injection h with h
    subst h
    simp only [Bool.and_eq_true] at h1
    constructor
    · intro c hc
      simp only [List.mem_cons, List.not_mem_nil, or_false] at hc
      rcases hc with rfl | rfl | rfl | rfl | rfl | rfl | rfl | rfl <;> tauto
    · refine ⟨rfl, rfl, rfl, ?_⟩
      exact ⟨h2.1, h2.2.1, h2.2.2.1, h2.2.2.2⟩

theorem parseDateOnly_inv {s : String} {t : DateTriple} (h : parseDateOnly s = some t) :
    ∃ y1 y2 y3 y4 mo1 mo2 dd1 dd2,
      s.data = [y1, y2, y3, y4, '-', mo1, mo2, '-', dd1, dd2] ∧
      (∀ c ∈ [y1, y2, y3, y4, mo1, mo2, dd1, dd2], isDigitCh c = true) ∧
      t.year = dvalL [y1, y2, y3, y4] ∧ t.month = dvalL [mo1, mo2] ∧
      t.day = dvalL [dd1, dd2] ∧
      1 ≤ t.month ∧ t.month ≤ 12 ∧ 1 ≤ t.day ∧ t.day ≤ 31 := by
  unfold parseDateOnly at h
  split at h
  case _ y1 y2 y3 y4 c1 mo1 mo2 c2 dd1 dd2 heq =>
    split_ifs at h with hc
    rcases hc with ⟨rfl, rfl⟩
    rcases mkDate_inv h with ⟨hdig, hy, hm, hd, hrange⟩
    exact ⟨y1, y2, y3, y4, mo1, mo2, dd1, dd2, heq, hdig, hy, hm, hd, hrange⟩
  case _ => exact absurd h (by simp)

/-- Equal-length digit lists with equal values are equal. -/
theorem digits_inj : ∀ (xs ys : List Char), xs.length = ys.length →
    (∀ c ∈ xs, isDigitCh c = true) → (∀ c ∈ ys, isDigitCh c = true) →
    dvalL xs = dvalL ys → xs = ys
  | [], [], _, _, _, _ => rfl
  | [], _ :: _, h, _, _, _ => by simp at h
  | _ :: _, [], h, _, _, _ => by simp at h
  | x :: xs, y :: ys, h, hx, hy, hv => by
    have hlen : xs.length = ys.length := by simpa using h
    have hxd := hx x (List.mem_cons_self _ _)
    have hyd := hy y (List.mem_cons_self _ _)
    have hxs : ∀ c ∈ xs, isDigitCh c = true := fun c hc => hx c (List.mem_cons_of_mem _ hc)
    have hys : ∀ c ∈ ys, isDigitCh c = true := fun c hc => hy c (List.mem_cons_of_mem _ hc)
    rw [dvalL_cons, dvalL_cons, hlen] at hv
    have hxb := dvalL_lt xs hxs
    have hyb := dvalL_lt ys hys
    rw [hlen] at hxb
    have hdv : dvalC x = dvalC y := by
      by_contra hne
      rcases Nat.lt_or_ge (dvalC x) (dvalC y) with hlt | hge
      · have h2 : (dvalC x + 1) * 10 ^ ys.length ≤ dvalC y * 10 ^ ys.length :=
          Nat.mul_le_mul_right _ hlt
        nlinarith
      · have hlt : dvalC y < dvalC x := by omega
        have h2 : (dvalC y + 1) * 10 ^ ys.length ≤ dvalC x * 10 ^ ys.length :=
          Nat.mul_le_mul_right _ hlt
        nlinarith
    have hch : x = y := digit_eq_of_dval_eq hxd hyd hdv
    have hrest : dvalL xs = dvalL ys := by
      rw [hdv] at hv; omega
    rw [hch, digits_inj xs ys hlen hxs hys hrest]

/-- For two parsed date-only keys, the JavaScript string order agrees with
lexicographic order of the civil-date triples. -/
theorem lexLt_iff_triple {s t : String} {a b : DateTriple}
    (hs : parseDateOnly s = some a) (ht : parseDateOnly t = some b) :
    lexLt s.data t.data = true ↔
      (a.year < b.year ∨ (a.year = b.year ∧ (a.month < b.month ∨
        (a.month = b.month ∧ a.day < b.day)))) := by
  rcases parseDateOnly_inv hs with
    ⟨y1, y2, y3, y4, mo1, mo2, dd1, dd2, hsd, hdig, hy, hm, hd, _⟩
  rcases parseDateOnly_inv ht with
    ⟨z1, z2, z3, z4, n1, n2, e1, e2, htd, hdig', hy', hm', hd', _⟩
  have hdigY : ∀ c ∈ [y1, y2, y3, y4], isDigitCh c = true := by
    intro c hc; apply hdig; simp at hc ⊢; tauto
  have hdigM : ∀ c ∈ [mo1, mo2], isDigitCh c = true := by
    intro c hc; apply hdig; simp at hc ⊢; tauto
  have hdigD : ∀ c ∈ [dd1, dd2], isDigitCh c = true := by
    intro c hc; apply hdig; simp at hc ⊢; tauto
  have hdigY' : ∀ c ∈ [z1, z2, z3, z4], isDigitCh c = true := by
    intro c hc; apply hdig'; simp at hc ⊢; tauto
  have hdigM' : ∀ c ∈ [n1, n2], isDigitCh c = true := by
    intro c hc; apply hdig'; simp at hc ⊢; tauto
  have hdigD' : ∀ c ∈ [e1, e2], isDigitCh c = true := by
    intro c hc; apply hdig'; simp at hc ⊢; tauto
  rw [hsd, htd]
  have e4 : ([y1, y2, y3, y4, '-', mo1, mo2, '-', dd1, dd2] : List Char) =
      [y1, y2, y3, y4] ++ ('-' :: ([mo1, mo2] ++ ('-' :: ([dd1, dd2] ++ [])))) := by simp
  have e4' : ([z1, z2, z3, z4, '-', n1, n2, '-', e1, e2] : List Char) =
      [z1, z2, z3, z4] ++ ('-' :: ([n1, n2] ++ ('-' :: ([e1, e2] ++ [])))) := by simp
  rw [e4, e4']
  rw [lexLt_digits [y1, y2, y3, y4] [z1, z2, z3, z4] rfl hdigY hdigY']
  have hdash : ∀ r1 r2 : List Char, lexLt ('-' :: r1) ('-' :: r2) = lexLt r1 r2 := by
    intro r1 r2
    rw [lexLt_cons]
    simp
  rw [hdash, lexLt_digits [mo1, mo2] [n1, n2] rfl hdigM hdigM',
    hdash, lexLt_digits [dd1, dd2] [e1, e2] rfl hdigD hdigD']
  rw [← hy, ← hy', ← hm, ← hm', ← hd, ← hd']
  simp only [lexLt]
  by_cases h1 : a.year < b.year
  · rw [if_pos h1]; tauto
  · rw [if_neg h1]
    by_cases h2 : b.year < a.year
    · rw [if_pos h2]
      constructor
      · intro h; cases h
      · intro h; omega
    · rw [if_neg h2]
      have hyeq : a.year = b.year := by omega
      by_cases h3 : a.month < b.month
      · rw [if_pos h3]; tauto
      · rw [if_neg h3]
        by_cases h4 : b.month < a.month
        · rw [if_pos h4]
          constructor
          · intro h; cases h
          · intro h; omega
        · rw [if_neg h4]
          have hmeq : a.month = b.month := by omega
          by_cases h5 : a.day < b.day
          · rw [if_pos h5]; tauto
          · rw [if_neg h5]
            by_cases h6 : b.day < a.day
            · rw [if_pos h6]
              constructor
              · intro h; cases h
              · intro h; omega
            · rw [if_neg h6]
              constructor
              · intro h; cases h
              · intro h; omega

/-- Two parsed date-only keys with the same civil date are the same string. -/
theorem parseDateOnly_inj {s t : String} {a : DateTriple}
    (hs : parseDateOnly s = some a) (ht : parseDateOnly t = some a) : s = t := by
  rcases parseDateOnly_inv hs with
    ⟨y1, y2, y3, y4, mo1, mo2, dd1, dd2, hsd, hdig, hy, hm, hd, _⟩
  rcases parseDateOnly_inv ht with
    ⟨z1, z2, z3, z4, n1, n2, e1, e2, htd, hdig', hy', hm', hd', _⟩
  have hY : ([y1, y2, y3, y4] : List Char) = [z1, z2, z3, z4] := by
    apply digits_inj [y1, y2, y3, y4] [z1, z2, z3, z4] rfl
    · intro c hc; apply hdig; simp at hc ⊢; tauto
    · intro c hc; apply hdig'; simp at hc ⊢; tauto
    · rw [← hy, ← hy']
  have hM : ([mo1, mo2] : List Char) = [n1, n2] := by
    apply digits_inj [mo1, mo2] [n1, n2] rfl
    · intro c hc; apply hdig; simp at hc ⊢; tauto
    · intro c hc; apply hdig'; simp at hc ⊢; tauto
    · rw [← hm, ← hm']
  have hD : ([dd1, dd2] : List Char) = [e1, e2] := by
    apply digits_inj [dd1, dd2] [e1, e2] rfl
    · intro c hc; apply hdig; simp at hc ⊢; tauto
    · intro c hc; apply hdig'; simp at hc ⊢; tauto
    · rw [← hd, ← hd']
  simp only [List.cons.injEq, and_true] at hY hM hD
  obtain ⟨e1, e2, e3, e4⟩ := hY
  obtain ⟨f1, f2⟩ := hM
  obtain ⟨g1, g2⟩ := hD
  have : s.data = t.data := by
    rw [hsd, htd, e1, e2, e3, e4, f1, f2, g1, g2]
  cases s; cases t
  simp only [String.data] at this
  rw [this]

/-! ## JavaScript objects used as counter maps -/

/-- `obj[k] = (obj[k] || 0) + n` on an insertion-ordered string-keyed
object. -/
def addKey (m : List (String × Nat)) (k : String) (n : Nat) : List (String × Nat) :=
  if m.any (fun p => p.1 = k) then
    m.map (fun p => if p.1 = k then (p.1, p.2 + n) else p)
  else m ++ [(k, n)]

/-- `obj[k] = (obj[k] || 0) + 1`. -/
def bumpKey (m : List (String × Nat)) (k : String) : List (String × Nat) := addKey m k 1

/-- `Object.keys` (insertion order; no array-index keys occur here). -/
def keysOf (m : List (String × Nat)) : List String := m.map Prod.fst

/-- Sum of the values of a counter object. -/
def valuesSum (m : List (String × Nat)) : Nat := (m.map Prod.snd).sum

/-- `obj[k]` as an optional value. -/
def lookupKey (m : List (String × Nat)) (k : String) : Option Nat :=
  (m.find? (fun p => p.1 = k)).map Prod.snd

theorem keysOf_addKey (m : List (String × Nat)) (k : String) (n : Nat) :
    keysOf (addKey m k n) = if k ∈ keysOf m then keysOf m else keysOf m ++ [k] := by
  simp only [addKey, keysOf]
  by_cases h : m.any (fun p => p.1 = k) = true
  · rw [if_pos h]
    have hk : k ∈ m.map Prod.fst := by
      simp only [List.any_eq_true, decide_eq_true_eq] at h
      rcases h with ⟨p, hp, hpk⟩
      exact List.mem_map.mpr ⟨p, hp, hpk⟩
    rw [if_pos hk, List.map_map]
    apply List.map_congr_left
    intro p hp
    by_cases hpk : p.1 = k <;> simp [hpk]
  · rw [if_neg h]
    have hk : k ∉ m.map Prod.fst := by
      intro hmem
      rcases List.mem_map.mp hmem with ⟨p, hp, hpk⟩
      simp only [List.any_eq_true, decide_eq_true_eq] at h
      exact h ⟨p, hp, hpk⟩
    rw [if_neg hk]
    simp

theorem map_update_id {ps : List (String × Nat)} {k : String} {n : Nat}
    (h : ∀ r ∈ ps, r.1 ≠ k) :
    ps.map (fun p => if p.1 = k then (p.1, p.2 + n) else p) = ps := by
  induction ps with
  | nil => rfl
  | cons p ps ih =>
    have hp := h p (List.mem_cons_self _ _)
    simp only [List.map_cons, if_neg hp]
    rw [ih (fun r hr => h r (List.mem_cons_of_mem _ hr))]

theorem valuesSum_addKey (m : List (String × Nat)) (k : String) (n : Nat)
    (hnd : (keysOf m).Nodup) :
    valuesSum (addKey m k n) = valuesSum m + n := by
  simp only [addKey]
  by_cases h : m.any (fun p => p.1 = k) = true
  · rw [if_pos h]
    simp only [List.any_eq_true, decide_eq_true_eq] at h
    induction m with
    | nil => simp at h
    | cons p ps ih =>
      simp only [keysOf, List.map_cons, List.nodup_cons] at hnd
      by_cases hpk : p.1 = k
      · have hps : ∀ r ∈ ps, r.1 ≠ k := by
          intro r hr hrk
          apply hnd.1
          rw [hpk, ← hrk]
          exact List.mem_map.mpr ⟨r, hr, rfl⟩
        simp only [valuesSum, List.map_cons, List.sum_cons, if_pos hpk,
          map_update_id hps]
        omega
      · rcases h with ⟨q, hq, hqk⟩
        rcases List.mem_cons.mp hq with rfl | hq'
        · exact absurd hqk hpk
        · have := ih hnd.2 ⟨q, hq', hqk⟩
          simp only [valuesSum, List.map_cons, List.sum_cons, if_neg hpk] at this ⊢
          omega
  · rw [if_neg h]
    simp [valuesSum]

theorem valuesSum_bumpKey (m : List (String × Nat)) (k : String)
    (hnd : (keysOf m).Nodup) : valuesSum (bumpKey m k) = valuesSum m + 1 :=
  valuesSum_addKey m k 1 hnd

theorem nodup_keysOf_addKey (m : List (String × Nat)) (k : String) (n : Nat)
    (hnd : (keysOf m).Nodup) : (keysOf (addKey m k n)).Nodup := by
  rw [keysOf_addKey]
  by_cases h : k ∈ keysOf m
  · rwa [if_pos h]
  · rw [if_neg h]
    simp only [List.nodup_append, List.nodup_cons, List.not_mem_nil, not_false_iff,
      List.nodup_nil, and_true, true_and]
    constructor
    · exact hnd
    · intro a ha hb
      simp only [List.mem_singleton] at hb
      exact h (hb ▸ ha)

theorem mem_keysOf_addKey {m : List (String × Nat)} {k j : String} {n : Nat} :
    j ∈ keysOf (addKey m k n) ↔ j ∈ keysOf m ∨ j = k := by
  rw [keysOf_addKey]
  by_cases h : k ∈ keysOf m
  · rw [if_pos h]
    constructor
    · exact Or.inl
    · rintro (hj | rfl)
      · exact hj
      · exact h
  · rw [if_neg h]
    simp

/-! ## The Event Analyzer (`analyzeEvents` in `src/github-api.js`) -/

/-- One GitHub activity event, carrying exactly the fields `analyzeEvents`
and `extractRecentProjects` read.  `repoName` models `event.repo?.name`;
`created_at` models `event.created_at` (absent → `none`).  The payload is
modelled by the four pieces the code extracts: the *length* of
`payload.commits`, `payload.pull_request.title`, `payload.issue.title`, and
`payload.ref_type`. -/
structure GhEvent where
  type : String
  repoName : Option String
  created_at : Option String
  payloadCommits : Option Nat
  payloadPullRequestTitle : Option String
  payloadIssueTitle : Option String
  payloadRefType : Option String
deriving DecidableEq

/-- A convenience constructor for events whose payload is irrelevant. -/
def mkEvent (ty : String) (repo : Option String) (ts : Option String) : GhEvent :=
  ⟨ty, repo, ts, none, none, none, none⟩

/-- `event.repo?.name || 'unknown'` (the empty string is falsy). -/
def eventRepoName (e : GhEvent) : String :=
  match e.repoName with
  | none => "unknown"
  | some s => if s = "" then "unknown" else s

/-- `hourlyActivity[hour]++`. -/
def hourlyBump (h : List Nat) (i : Nat) : List Nat := h.set i (h.getD i 0 + 1)

/-- The four accumulators of the single pass over the events. -/
structure AnalyzeAcc where
  eventCounts : List (String × Nat)
  repoActivity : List (String × Nat)
  dailyActivity : List (String × Nat)
  hourly : List Nat

/-- The loop body of `analyzeEvents`: count the event type, count the
repository, count the day key (`created_at?.split('T')[0]`, skipped when
falsy), and count the hour (`new Date(created_at).getHours()`, skipped when
`NaN`). -/
def analyzeStep (acc : AnalyzeAcc) (e : GhEvent) : AnalyzeAcc :=
  { eventCounts := bumpKey acc.eventCounts e.type
    repoActivity := bumpKey acc.repoActivity (eventRepoName e)
    dailyActivity :=
      match e.created_at with
      | none => acc.dailyActivity
      | some s => if dateOf s = "" then acc.dailyActivity else bumpKey acc.dailyActivity (dateOf s)
    hourly :=
      match e.created_at with
      | none => acc.hourly
      | some s =>
        match jsGetHours s with
        | none => acc.hourly
        | some h => hourlyBump acc.hourly h }

/-- `Math.max(...hourly)` (the array always has 24 non-negative slots). -/
def maxOf (l : List Nat) : Nat := l.foldr max 0

/-- `hourly.indexOf(Math.max(...hourly))`: first index holding the maximum. -/
def jsIndexOfMax (l : List Nat) : Nat := l.findIdx (fun v => v = maxOf l)

/-- Stable insertion used to model `Array.prototype.sort((a, b) => b[1] - a[1])`
(descending by count; ES2019 sort is stable, so ties keep first-seen
order). -/
def insDesc (x : String × Nat) : List (String × Nat) → List (String × Nat)
  | [] => [x]
  | y :: ys => if y.2 < x.2 then x :: y :: ys else y :: insDesc x ys

/-- `entries.sort((a, b) => b[1] - a[1])`, stable. -/
def sortByCountDesc (l : List (String × Nat)) : List (String × Nat) :=
  l.foldl (fun acc x => insDesc x acc) []

/-- One step of the streak walk:
`Math.round((currDate - prevDate) / 86400000) === 1`.  Both keys are
date-only strings, so valid parses sit on UTC midnights and the rounded
quotient is the exact day difference; an invalid parse gives `NaN`, and
`NaN === 1` is false. -/
def gapIsOne (prev curr : String) : Bool :=
  match keyDay prev, keyDay curr with
  | some a, some b => (b : Int) - (a : Int) == 1
  | _, _ => false

/-- The streak loop over the sorted day keys (`currentStreak` / `maxStreak`
updates of the source). -/
def streakGo : List String → String → Nat → Nat → Nat
  | [], _, cur, mx => max mx cur
  | d :: rest, prev, cur, mx =>
    if gapIsOne prev d then streakGo rest d (cur + 1) mx
    else streakGo rest d 1 (max mx cur)

/-- `activityStreak` from the lexicographically sorted distinct day keys. -/
def streakOf (dates : List String) : Nat :=
  match dates with
  | [] => 0
  | d :: rest => streakGo rest d 1 0

/-- The result record of `analyzeEvents`. -/
structure EventAnalysis where
  eventCounts : List (String × Nat)
  repoActivity : List (String × Nat)
  peakHour : Nat
  activityStreak : Nat
  totalEvents : Nat
  mostActiveRepo : Option String
  dailyActivity : List (String × Nat)
deriving DecidableEq

/-- `sortedRepos[0]?.[0] || null` (a falsy name would yield `null`). -/
def firstRepoName (l : List (String × Nat)) : Option String :=
  match l with
  | [] => none
  | p :: _ => if p.1 = "" then none else some p.1

/-- The initial accumulator of `analyzeEvents`. -/
def analyzeInit : AnalyzeAcc := ⟨[], [], [], List.replicate 24 0⟩

/-- The Event Analyzer: `analyzeEvents(events)`. -/
def analyzeEvents (events : List GhEvent) : EventAnalysis :=
  let acc := events.foldl analyzeStep analyzeInit
  let sortedRepos := sortByCountDesc acc.repoActivity
  { eventCounts := acc.eventCounts
    repoActivity := sortedRepos.take 5
    peakHour := jsIndexOfMax acc.hourly
    activityStreak := streakOf (sortStrings (keysOf acc.dailyActivity))
    totalEvents := events.length
    mostActiveRepo := firstRepoName sortedRepos
    dailyActivity := acc.dailyActivity }

/-! ## The claim-side streak specification

`longestRun S` is the length of the longest run of consecutive day numbers
all present in `S`: the greatest `n` (necessarily at most `S.length`) such
that some day `d ∈ S` starts a run `d, d+1, …, d+n-1` contained in `S`. -/

/-- Some run of `n` consecutive days starting inside `S` lies in `S`. -/
def hasRunOf (S : List Nat) (n : Nat) : Prop := ∃ d ∈ S, ∀ j < n, d + j ∈ S

instance hasRunOfDecidable (S : List Nat) : DecidablePred (hasRunOf S) := by
  intro n
  unfold hasRunOf
  infer_instance

/-- Length of the longest run of consecutive days contained in `S`. -/
def longestRun (S : List Nat) : Nat := Nat.findGreatest (hasRunOf S) S.length

/-- A run is a set of distinct values, so its length is bounded by the
length of any duplicate-free list containing it. -/
theorem nodup_subset_length_le {l₁ l₂ : List Nat} (h₁ : l₁.Nodup)
    (hsub : ∀ x ∈ l₁, x ∈ l₂) : l₁.length ≤ l₂.length := by
  calc l₁.length = l₁.toFinset.card := (List.toFinset_card_of_nodup h₁).symm
    _ ≤ l₂.toFinset.card := by
        apply Finset.card_le_card
        intro x hx
        rw [List.mem_toFinset] at hx ⊢
        exact hsub x hx
    _ ≤ l₂.length := l₂.toFinset_card_le

theorem hasRunOf_le_length {S : List Nat} {n : Nat} (hnd : S.Nodup)
    (h : hasRunOf S n) : n ≤ S.length := by
  rcases h with ⟨d, hd, hrun⟩
  have : ((List.range n).map (fun j => d + j)).length ≤ S.length := by
    apply nodup_subset_length_le
    · apply List.Nodup.map
      · intro a b hab
        have : d + a = d + b := hab
        omega
      · exact List.nodup_range n
    · intro x hx
      rcases List.mem_map.mp hx with ⟨j, hj, rfl⟩
      exact hrun j (List.mem_range.mp hj)
  simpa using this

/-- `longestRun` only depends on membership (for duplicate-free lists). -/
theorem longestRun_congr {S T : List Nat} (hS : S.Nodup) (hT : T.Nodup)
    (h : ∀ x, x ∈ S ↔ x ∈ T) : longestRun S = longestRun T := by
  have hlen : S.length = T.length := by
    have h1 : S.toFinset = T.toFinset := by
      ext x; rw [List.mem_toFinset, List.mem_toFinset]; exact h x
    calc S.length = S.toFinset.card := (List.toFinset_card_of_nodup hS).symm
      _ = T.toFinset.card := by rw [h1]
      _ = T.length := List.toFinset_card_of_nodup hT
  have hP : ∀ n, hasRunOf S n ↔ hasRunOf T n := by
    intro n
    unfold hasRunOf
    constructor
    · rintro ⟨d, hd, hrun⟩
      exact ⟨d, (h d).mp hd, fun j hj => (h _).mp (hrun j hj)⟩
    · rintro ⟨d, hd, hrun⟩
      exact ⟨d, (h d).mpr hd, fun j hj => (h _).mpr (hrun j hj)⟩
  unfold longestRun
  rw [hlen]
  congr 1
  funext n
  exact propext (hP n)

/-! ## The streak loop, on day numbers -/

/-- The streak loop transported to day numbers. -/
def streakGoN : List Nat → Nat → Nat → Nat → Nat
  | [], _, cur, mx => max mx cur
  | d :: rest, prev, cur, mx =>
    if d = prev + 1 then streakGoN rest d (cur + 1) mx
    else streakGoN rest d 1 (max mx cur)

/-- `streakOf` transported to day numbers. -/
def streakN : List Nat → Nat
  | [] => 0
  | d :: rest => streakGoN rest d 1 0

/-- Length of the maximal prefix of consecutive successors of `prev`. -/
def contLen : Nat → List Nat → Nat
  | _, [] => 0
  | prev, d :: rest => if d = prev + 1 then contLen d rest + 1 else 0

/-- The list after dropping the maximal consecutive-successor prefix. -/
def dropCont : Nat → List Nat → List Nat
  | _, [] => []
  | prev, d :: rest => if d = prev + 1 then dropCont d rest else d :: rest

theorem dropCont_sublist : ∀ (prev : Nat) (l : List Nat), (dropCont prev l).Sublist l
  | _, [] => List.Sublist.refl _
  | prev, d :: rest => by
    simp only [dropCont]
    by_cases h : d = prev + 1
    · rw [if_pos h]
      exact (dropCont_sublist d rest).cons d
    · rw [if_neg h]

/-- Loop characterization: the running maximum absorbs the current block
(extended by the consecutive prefix) and the streak of the remainder. -/
theorem streakGoN_eq : ∀ (rest : List Nat) (prev cur mx : Nat),
    streakGoN rest prev cur mx =
      max mx (max (cur + contLen prev rest) (streakN (dropCont prev rest)))
  | [], prev, cur, mx => by simp [streakGoN, contLen, dropCont, streakN]
  | d :: rest, prev, cur, mx => by
    simp only [streakGoN, contLen, dropCont]
    by_cases h : d = prev + 1
    · rw [if_pos h, if_pos h, if_pos h, streakGoN_eq rest d (cur + 1) mx]
      omega
    · rw [if_neg h, if_neg h, if_neg h, streakGoN_eq rest d 1 (max mx cur)]
      have : streakN (d :: rest) = max (1 + contLen d rest) (streakN (dropCont d rest)) := by
        rw [show streakN (d :: rest) = streakGoN rest d 1 0 from rfl, streakGoN_eq rest d 1 0]
        simp
      rw [this]
      simp only [Nat.add_zero]
      exact Nat.max_assoc mx cur _

theorem streakN_cons (d : Nat) (rest : List Nat) :
    streakN (d :: rest) = max (1 + contLen d rest) (streakN (dropCont d rest)) := by
  rw [show streakN (d :: rest) = streakGoN rest d 1 0 from rfl, streakGoN_eq rest d 1 0]
  simp

/-- Decomposition of a strictly ascending list at the first gap: the
consecutive prefix is `prev+1, …, prev+contLen`, and everything after the
gap clears `prev + contLen + 2`. -/
theorem contLen_decomp : ∀ (l : List Nat) (prev : Nat),
    (prev :: l).Pairwise (· < ·) →
    l = List.range' (prev + 1) (contLen prev l) ++ dropCont prev l ∧
    (∀ x ∈ dropCont prev l, prev + contLen prev l + 2 ≤ x)
  | [], prev, _ => by simp [contLen, dropCont]
  | e :: rest, prev, h => by
    rcases List.pairwise_cons.mp h with ⟨hprev, htail⟩
    by_cases he : e = prev + 1
    · subst he
      have ih := contLen_decomp rest (prev + 1) htail
      have hc : contLen prev ((prev + 1) :: rest) = contLen (prev + 1) rest + 1 := by
        simp [contLen]
      have hd : dropCont prev ((prev + 1) :: rest) = dropCont (prev + 1) rest := by
        simp [dropCont]
      constructor
      · rw [hc, hd, List.range'_succ, List.cons_append, ← ih.1]
      · intro x hx
        rw [hd] at hx
        rw [hc]
        have := ih.2 x hx
        omega
    · have hge : prev + 2 ≤ e := by
        have := hprev e (List.mem_cons_self _ _)
        omega
      constructor
      · simp [contLen, dropCont, if_neg he]
      · intro x hx
        simp only [contLen, dropCont, if_neg he, if_false] at hx ⊢
        rcases List.mem_cons.mp hx with rfl | hx'
        · omega
        · have := List.rel_of_pairwise_cons htail hx'
          omega

theorem longestRun_nil : longestRun [] = 0 := rfl

theorem hasRunOf_zero {S : List Nat} (hne : S ≠ []) : hasRunOf S 0 := by
  rcases S with _ | ⟨x, xs⟩
  · exact absurd rfl hne
  · exact ⟨x, List.mem_cons_self _ _, fun j hj => absurd hj (Nat.not_lt_zero j)⟩

theorem hasRunOf_spec {S : List Nat} (hne : S ≠ []) : hasRunOf S (longestRun S) := by
  unfold longestRun
  exact Nat.findGreatest_spec (Nat.zero_le _) (hasRunOf_zero hne)

theorem le_longestRun {S : List Nat} {n : Nat} (hn : n ≤ S.length) (h : hasRunOf S n) :
    n ≤ longestRun S :=
  Nat.le_findGreatest hn h

/-- On a strictly ascending list, the source's streak loop computes exactly
the longest run of consecutive days (fuelled induction on the list length). -/
theorem streakN_eq_longestRun_aux : ∀ (n : Nat) (l : List Nat), l.length ≤ n →
    l.Pairwise (· < ·) → streakN l = longestRun l := by
  intro n
  induction n with
  | zero =>
    intro l hlen hl
    rcases l with _ | ⟨d, rest⟩
    · simp [streakN, longestRun_nil]
    · simp at hlen
  | succ n ih =>
    intro l hlen hl
    rcases l with _ | ⟨d, rest⟩
    · simp [streakN, longestRun_nil]
    · have hdecomp := contLen_decomp rest d hl
      set c := contLen d rest with hc
      set drop := dropCont d rest with hdrop
      have hblock : rest = List.range' (d + 1) c ++ drop := hdecomp.1
      have hclear : ∀ x ∈ drop, d + c + 2 ≤ x := hdecomp.2
      have hdropsub : drop.Sublist rest := dropCont_sublist d rest
      have hdroppw : drop.Pairwise (· < ·) :=
        (List.pairwise_cons.mp hl).2.sublist hdropsub
      have hlenrest : rest.length = c + drop.length := by
        rw [hblock]; simp
      have hdroplen : drop.length ≤ n := by
        have h1 : drop.length ≤ rest.length := hdropsub.length_le
        simp only [List.length_cons] at hlen
        omega
      have hIH : streakN drop = longestRun drop := ih drop hdroplen hdroppw
      have hge : ∀ x ∈ (d :: rest : List Nat), d ≤ x := by
        intro x hx
        rcases List.mem_cons.mp hx with rfl | hx'
        · exact le_refl _
        · exact le_of_lt (List.rel_of_pairwise_cons hl hx')
      have hmem_iff : ∀ x, x ∈ (d :: rest : List Nat) ↔
          x ∈ List.range' d (c + 1) ∨ x ∈ drop := by
        intro x
        rw [List.range'_succ, hblock]
        simp [List.mem_cons, List.mem_append]
        tauto
      have hgapfree : (d + c + 1) ∉ (d :: rest : List Nat) := by
        intro hx
        rcases (hmem_iff _).mp hx with hx' | hx'
        · rw [List.mem_range'_1] at hx'
          omega
        · have := hclear _ hx'
          omega
      have hlowmem : ∀ x, x ∈ (d :: rest : List Nat) → x ≤ d + c →
          x ∈ List.range' d (c + 1) := by
        intro x hx hxle
        rcases (hmem_iff _).mp hx with hx' | hx'
        · exact hx'
        · have := hclear _ hx'
          omega
      have hhighmem : ∀ x, x ∈ (d :: rest : List Nat) → d + c + 2 ≤ x → x ∈ drop := by
        intro x hx hxge
        rcases (hmem_iff _).mp hx with hx' | hx'
        · rw [List.mem_range'_1] at hx'
          omega
        · exact hx'
      rw [streakN_cons, ← hc, ← hdrop, hIH]
      apply le_antisymm
      · apply max_le
        · -- the block run d, d+1, …, d+c is present
          apply le_longestRun
          · simp only [List.length_cons]
            omega
          · refine ⟨d, List.mem_cons_self _ _, ?_⟩
            intro j hj
            apply (hmem_iff _).mpr
            left
            rw [List.mem_range'_1]
            omega
        · -- runs of the remainder are runs of the whole list
          rcases heq : drop with _ | ⟨x, xs⟩
          · simp [longestRun_nil]
          · rw [← heq]
            have hdropne : drop ≠ [] := by rw [heq]; simp
            rcases hasRunOf_spec hdropne with ⟨d₀, hd₀, hrun⟩
            apply le_longestRun
            · have h1 : longestRun drop ≤ drop.length := Nat.findGreatest_le _
              simp only [List.length_cons]
              omega
            · refine ⟨d₀, ?_, ?_⟩
              · exact (hmem_iff _).mpr (Or.inr hd₀)
              · intro j hj
                exact (hmem_iff _).mpr (Or.inr (hrun j hj))
      · -- any run of the whole list fits in the block or in the remainder
        rcases hN : longestRun (d :: rest) with _ | N0
        · omega
        · rw [← hN]
          have hne : (d :: rest : List Nat) ≠ [] := by simp
          rcases hasRunOf_spec hne with ⟨d₀, hd₀, hrun⟩
          set N := longestRun (d :: rest) with hNdef
          by_cases hcase : ∀ j < N, d₀ + j ≤ d + c
          · -- run inside the block: length at most c + 1
            have hNle : N ≤ c + 1 := by
              have hd₀ge : d ≤ d₀ := hge d₀ hd₀
              have hlast := hcase (N - 1) (by omega)
              omega
            calc N ≤ c + 1 := hNle
              _ ≤ max (1 + c) (longestRun drop) := by omega
          · -- run inside the remainder
            push_neg at hcase
            rcases hcase with ⟨j₀, hj₀, hj₀ge⟩
            have hj₀mem := hrun j₀ hj₀
            have hj₀big : d + c + 2 ≤ d₀ + j₀ := by
              by_contra hcon
              have : d₀ + j₀ = d + c + 1 := by omega
              exact hgapfree (this ▸ hj₀mem)
            have hall : ∀ j < N, d + c + 2 ≤ d₀ + j := by
              intro j hj
              by_contra hcon
              push_neg at hcon
              have hjle : d₀ + j ≤ d + c := by
                by_contra hcon2
                have : d₀ + j = d + c + 1 := by omega
                exact hgapfree (this ▸ hrun j hj)
              -- the run is an integer interval, so it contains d + c + 1
              have hk : d + c + 1 - d₀ < N := by omega
              have := hrun (d + c + 1 - d₀) hk
              have heqv : d₀ + (d + c + 1 - d₀) = d + c + 1 := by omega
              exact hgapfree (heqv ▸ this)
            have hrundrop : hasRunOf drop N := by
              refine ⟨d₀, ?_, ?_⟩
              · have h0 := hall 0 (by omega)
                have := hhighmem d₀ hd₀ (by omega)
                exact this
              · intro j hj
                exact hhighmem _ (hrun j hj) (hall j hj)
            have hdropnd : drop.Nodup := hdroppw.nodup
            have hNlen : N ≤ drop.length := hasRunOf_le_length hdropnd hrundrop
            have : N ≤ longestRun drop := le_longestRun hNlen hrundrop
            omega

theorem streakN_eq_longestRun (l : List Nat) (hl : l.Pairwise (· < ·)) :
    streakN l = longestRun l :=
  streakN_eq_longestRun_aux l.length l (le_refl _) hl

theorem parseDateOnly_data {y1 y2 y3 y4 mo1 mo2 dd1 dd2 : Char} {s : String}
    (hdata : s.data = [y1, y2, y3, y4, '-', mo1, mo2, '-', dd1, dd2]) :
    parseDateOnly s = mkDate y1 y2 y3 y4 mo1 mo2 dd1 dd2 := by
  unfold parseDateOnly
  rw [hdata]
  rfl

theorem digit_ne_T {c : Char} (h : isDigitCh c = true) : c ≠ 'T' := by
  intro hc
  subst hc
  simp [isDigitCh] at h

theorem dash_ne_T : ('-' : Char) ≠ 'T' := by decide

/-- The date portion of a string accepted by the timestamp parser parses as
a date-only string, with the same civil date. -/
theorem parseTimestamp_dateOf {s : String} {t : JsTimestamp}
    (h : parseTimestamp s = some t) : parseDateOnly (dateOf s) = some t.date := by
  unfold parseTimestamp at h
  split at h
  case _ y1 y2 y3 y4 c1 mo1 mo2 c2 dd1 dd2 heq =>
    split_ifs at h with hc
    rcases hc with ⟨rfl, rfl⟩
    rcases hmk : mkDate y1 y2 y3 y4 mo1 mo2 dd1 dd2 with _ | dt
    · rw [hmk] at h; simp at h
    · rw [hmk] at h
      simp only [Option.map_some'] at h
      injection h with h
      subst h
      rcases mkDate_inv hmk with ⟨hdig, _⟩
      have hne : ∀ c ∈ [y1, y2, y3, y4, mo1, mo2, dd1, dd2], c ≠ 'T' :=
        fun c hc => digit_ne_T (hdig c hc)
      have hdata : (dateOf s).data = [y1, y2, y3, y4, '-', mo1, mo2, '-', dd1, dd2] := by
        simp only [dateOf, heq]
        rw [List.takeWhile]
        simp only [List.takeWhile_cons]
        have h1 := hne y1 (by simp)
        have h2 := hne y2 (by simp)
        have h3 := hne y3 (by simp)
        have h4 := hne y4 (by simp)
        have h5 := hne mo1 (by simp)
        have h6 := hne mo2 (by simp)
        have h7 := hne dd1 (by simp)
        have h8 := hne dd2 (by simp)
        simp [h1, h2, h3, h4, h5, h6, h7, h8, dash_ne_T]
      rw [parseDateOnly_data hdata, hmk]
  case _ y1 y2 y3 y4 c1 mo1 mo2 c2 dd1 dd2 tc h1 h2 c3 mi1 mi2 c4 sc1 sc2 zc heq =>
    split_ifs at h with hc hr
    rcases hc with ⟨rfl, rfl, rfl, rfl, rfl, rfl, hd1, hd2, hd3, hd4, hd5, hd6⟩
    rcases hmk : mkDate y1 y2 y3 y4 mo1 mo2 dd1 dd2 with _ | dt
    · rw [hmk] at h; simp at h
    · rw [hmk] at h
      simp only [Option.map_some'] at h
      injection h with h
      subst h
      rcases mkDate_inv hmk with ⟨hdig, _⟩
      have hne : ∀ c ∈ [y1, y2, y3, y4, mo1, mo2, dd1, dd2], c ≠ 'T' :=
        fun c hc => digit_ne_T (hdig c hc)
      have hdata : (dateOf s).data = [y1, y2, y3, y4, '-', mo1, mo2, '-', dd1, dd2] := by
        simp only [dateOf, heq]
        rw [List.takeWhile]
        simp only [List.takeWhile_cons]
        have g1 := hne y1 (by simp)
        have g2 := hne y2 (by simp)
        have g3 := hne y3 (by simp)
        have g4 := hne y4 (by simp)
        have g5 := hne mo1 (by simp)
        have g6 := hne mo2 (by simp)
        have g7 := hne dd1 (by simp)
        have g8 := hne dd2 (by simp)
        simp [g1, g2, g3, g4, g5, g6, g7, g8, dash_ne_T]
      rw [parseDateOnly_data hdata, hmk]
  case _ => exact absurd h (by simp)

theorem parseTimestamp_hour_lt {s : String} {t : JsTimestamp}
    (h : parseTimestamp s = some t) : t.hour < 24 := by
  unfold parseTimestamp at h
  split at h
  case _ =>
    split_ifs at h with hc
    rcases hmk : mkDate _ _ _ _ _ _ _ _ with _ | dt <;> rw [hmk] at h
    · simp at h
    · simp only [Option.map_some'] at h
      injection h with h
      subst h
      exact Nat.zero_lt_succ _
  case _ =>
    split_ifs at h with hc hr
    rcases hmk : mkDate _ _ _ _ _ _ _ _ with _ | dt <;> rw [hmk] at h
    · simp at h
    · simp only [Option.map_some'] at h
      injection h with h
      subst h
      simp only
      omega
  case _ => exact absurd h (by simp)

/-! ## Projections of the analyzer fold -/

/-- The daily-activity component of one loop step. -/
def dailyStep (m : List (String × Nat)) (e : GhEvent) : List (String × Nat) :=
  match e.created_at with
  | none => m
  | some s => if dateOf s = "" then m else bumpKey m (dateOf s)

/-- The hourly component of one loop step. -/
def hourlyStep (h : List Nat) (e : GhEvent) : List Nat :=
  match e.created_at with
  | none => h
  | some s =>
    match jsGetHours s with
    | none => h
    | some hr => hourlyBump h hr

theorem foldl_analyzeStep_daily : ∀ (events : List GhEvent) (acc : AnalyzeAcc),
    (events.foldl analyzeStep acc).dailyActivity =
      events.foldl dailyStep acc.dailyActivity
  | [], acc => rfl
  | e :: es, acc => by
    simp only [List.foldl_cons]
    rw [foldl_analyzeStep_daily es (analyzeStep acc e)]
    rfl

theorem foldl_analyzeStep_counts : ∀ (events : List GhEvent) (acc : AnalyzeAcc),
    (events.foldl analyzeStep acc).eventCounts =
      events.foldl (fun m e => bumpKey m e.type) acc.eventCounts
  | [], acc => rfl
  | e :: es, acc => by
    simp only [List.foldl_cons]
    rw [foldl_analyzeStep_counts es (analyzeStep acc e)]
    rfl

theorem foldl_analyzeStep_hourly : ∀ (events : List GhEvent) (acc : AnalyzeAcc),
    (events.foldl analyzeStep acc).hourly =
      events.foldl hourlyStep acc.hourly
  | [], acc => rfl
  | e :: es, acc => by
    simp only [List.foldl_cons]
    rw [foldl_analyzeStep_hourly es (analyzeStep acc e)]
    rfl

theorem nodup_keysOf_dailyFold : ∀ (events : List GhEvent) (m : List (String × Nat)),
    (keysOf m).Nodup → (keysOf (events.foldl dailyStep m)).Nodup
  | [], m, h => h
  | e :: es, m, h => by
    simp only [List.foldl_cons]
    apply nodup_keysOf_dailyFold es
    unfold dailyStep
    rcases e.created_at with _ | s
    · exact h
    · simp only
      split_ifs with hs
      · exact h
      · exact nodup_keysOf_addKey m (dateOf s) 1 h

theorem mem_keysOf_dailyFold : ∀ (events : List GhEvent) (m : List (String × Nat)) (j : String),
    j ∈ keysOf (events.foldl dailyStep m) ↔
      j ∈ keysOf m ∨ ∃ e ∈ events, ∃ s, e.created_at = some s ∧ dateOf s = j ∧ dateOf s ≠ ""
  | [], m, j => by simp
  | e :: es, m, j => by
    simp only [List.foldl_cons]
    rw [mem_keysOf_dailyFold es (dailyStep m e) j]
    unfold dailyStep
    rcases hca : e.created_at with _ | s
    · simp only
      constructor
      · rintro (h | h)
        · exact Or.inl h
        · right
          rcases h with ⟨e', he', hs⟩
          exact ⟨e', List.mem_cons_of_mem _ he', hs⟩
      · rintro (h | ⟨e', he', s', hs', rest⟩)
        · exact Or.inl h
        · rcases List.mem_cons.mp he' with rfl | he''
          · rw [hca] at hs'; cases hs'
          · exact Or.inr ⟨e', he'', s', hs', rest⟩
    · simp only
      by_cases hs : dateOf s = ""
      · rw [if_pos hs]
        constructor
        · rintro (h | h)
          · exact Or.inl h
          · right
            rcases h with ⟨e', he', hs'⟩
            exact ⟨e', List.mem_cons_of_mem _ he', hs'⟩
        · rintro (h | ⟨e', he', s', hs', hj, hne⟩)
          · exact Or.inl h
          · rcases List.mem_cons.mp he' with rfl | he''
            · rw [hca] at hs'
              injection hs' with hs'
              subst hs'
              exact absurd hs hne
            · exact Or.inr ⟨e', he'', s', hs', hj, hne⟩
      · rw [if_neg hs]
        rw [show keysOf (bumpKey m (dateOf s)) = keysOf (addKey m (dateOf s) 1) from rfl]
        constructor
        · rintro (h | h)
          · rcases mem_keysOf_addKey.mp h with h' | rfl
            · exact Or.inl h'
            · exact Or.inr ⟨e, List.mem_cons_self _ _, s, hca, rfl, hs⟩
          · right
            rcases h with ⟨e', he', hs'⟩
            exact ⟨e', List.mem_cons_of_mem _ he', hs'⟩
        · rintro (h | ⟨e', he', s', hs', hj, hne⟩)
          · exact Or.inl (mem_keysOf_addKey.mpr (Or.inl h))
          · rcases List.mem_cons.mp he' with rfl | he''
            · rw [hca] at hs'
              injection hs' with hs'
              subst hs'
              exact Or.inl (mem_keysOf_addKey.mpr (Or.inr hj.symm))
            · exact Or.inr ⟨e', he'', s', hs', hj, hne⟩

/-! ## The claim-side day set and the streak bridge -/

/-- Day number of a date-only key that is known to parse. -/
def dayOfKey (s : String) : Nat :=
  match parseDateOnly s with
  | some t => dayNumber t.year t.month t.day
  | none => 0

/-- The calendar day denoted by the date portion of an event's timestamp,
when that portion denotes one. -/
def eventDay (e : GhEvent) : Option Nat :=
  match e.created_at with
  | none => none
  | some s => (parseDateOnly (dateOf s)).map (fun t => dayNumber t.year t.month t.day)

/-- The distinct calendar days (from the date portions of the events'
timestamps) that contain at least one event. -/
def eventDays (events : List GhEvent) : List Nat := (events.filterMap eventDay).dedup

theorem keyDay_eq {s : String} {t : DateTriple} (h : parseDateOnly s = some t) :
    keyDay s = some (dayOfKey s) := by
  simp [keyDay, dayOfKey, h]

theorem gapIsOne_eq {prev curr : String} {tp tc : DateTriple}
    (hp : parseDateOnly prev = some tp) (hc : parseDateOnly curr = some tc) :
    gapIsOne prev curr = (dayOfKey curr = dayOfKey prev + 1 : Bool) := by
  rw [gapIsOne, keyDay_eq hp, keyDay_eq hc]
  simp only
  rcases Nat.decEq (dayOfKey curr) (dayOfKey prev + 1) with h | h
  · have h1 : ¬ ((dayOfKey curr : Int) - (dayOfKey prev : Int) = 1) := by
      intro hcon; apply h; omega
    simp [h1, h]
  · have h1 : (dayOfKey curr : Int) - (dayOfKey prev : Int) = 1 := by omega
    simp [h1, h]

theorem streakGo_bridge : ∀ (rest : List String) (prev : String) (cur mx : Nat),
    (∀ s ∈ prev :: rest, ∃ t, parseDateOnly s = some t) →
    streakGo rest prev cur mx = streakGoN (rest.map dayOfKey) (dayOfKey prev) cur mx
  | [], prev, cur, mx, _ => rfl
  | d :: rest, prev, cur, mx, h => by
    rcases h prev (List.mem_cons_self _ _) with ⟨tp, hp⟩
    rcases h d (List.mem_cons_of_mem _ (List.mem_cons_self _ _)) with ⟨td, hd⟩
    have hrest : ∀ s ∈ d :: rest, ∃ t, parseDateOnly s = some t := by
      intro s hs
      exact h s (List.mem_cons_of_mem _ hs)
    simp only [streakGo, streakGoN, List.map_cons]
    rw [gapIsOne_eq hp hd]
    by_cases hg : dayOfKey d = dayOfKey prev + 1
    · rw [if_pos (by simpa using hg), if_pos hg]
      exact streakGo_bridge rest d (cur + 1) mx hrest
    · rw [if_neg (by simpa using hg), if_neg hg]
      exact streakGo_bridge rest d 1 (max mx cur) hrest

theorem streakOf_bridge (l : List String)
    (h : ∀ s ∈ l, ∃ t, parseDateOnly s = some t) :
    streakOf l = streakN (l.map dayOfKey) := by
  rcases l with _ | ⟨d, rest⟩
  · rfl
  · simp only [streakOf, List.map_cons, streakN]
    exact streakGo_bridge rest d 1 0 h

theorem canonicalTs_parse {s : String} (h : canonicalTs s = true) :
    ∃ tt : JsTimestamp, parseTimestamp s = some tt ∧
      tt.date.day ≤ monthLen tt.date.year tt.date.month := by
  unfold canonicalTs at h
  split at h
  case _ t heq => exact ⟨t, heq, by simpa using h⟩
  case _ => cases h

theorem parseDateOnly_ne_empty {s : String} {t : DateTriple}
    (h : parseDateOnly s = some t) : s ≠ "" := by
  rcases parseDateOnly_inv h with ⟨y1, _, _, _, _, _, _, _, hsd, _⟩
  intro hcon
  subst hcon
  simp at hsd

/-- On canonical date keys, the sorted order of the strings gives strictly
ascending day numbers. -/
theorem dayOfKey_lt {a b : String} {ta tb : DateTriple}
    (hpa : parseDateOnly a = some ta) (hpb : parseDateOnly b = some tb)
    (hma : 1 ≤ ta.month ∧ ta.month ≤ 12) (hda : 1 ≤ ta.day ∧ ta.day ≤ monthLen ta.year ta.month)
    (hmb : 1 ≤ tb.month ∧ tb.month ≤ 12) (hdb : 1 ≤ tb.day ∧ tb.day ≤ monthLen tb.year tb.month)
    (hne : a ≠ b) (hnl : lexLt b.data a.data = false) :
    dayOfKey a < dayOfKey b := by
  have hna : dayOfKey a = dayNumber ta.year ta.month ta.day := by
    simp [dayOfKey, hpa]
  have hnb : dayOfKey b = dayNumber tb.year tb.month tb.day := by
    simp [dayOfKey, hpb]
  rw [hna, hnb]
  rcases Nat.lt_trichotomy ta.year tb.year with hy | hy | hy
  · exact dayNumber_strictMono hma hda hmb hdb (Or.inl hy)
  · rcases Nat.lt_trichotomy ta.month tb.month with hm | hm | hm
    · exact dayNumber_strictMono hma hda hmb hdb (Or.inr ⟨hy, Or.inl hm⟩)
    · rcases Nat.lt_trichotomy ta.day tb.day with hd | hd | hd
      · exact dayNumber_strictMono hma hda hmb hdb (Or.inr ⟨hy, Or.inr ⟨hm, hd⟩⟩)
      · exfalso
        apply hne
        have : ta = tb := by
          cases ta; cases tb
          simp_all
        exact parseDateOnly_inj hpa (this ▸ hpb)
      · exfalso
        have : lexLt b.data a.data = true := by
          rw [lexLt_iff_triple hpb hpa]
          omega
        rw [this] at hnl; cases hnl
    · exfalso
      have : lexLt b.data a.data = true := by
        rw [lexLt_iff_triple hpb hpa]
        omega
      rw [this] at hnl; cases hnl
  · exfalso
    have : lexLt b.data a.data = true := by
      rw [lexLt_iff_triple hpb hpa]
      omega
    rw [this] at hnl; cases hnl

/-- The streak reported by `analyzeEvents` equals the length of the longest
run of consecutive calendar days containing at least one event, provided
every present timestamp is a canonical ISO timestamp. -/
theorem analyzeEvents_streak_eq (events : List GhEvent)
    (hcanon : ∀ e ∈ events, ∀ s, e.created_at = some s → canonicalTs s = true) :
    (analyzeEvents events).activityStreak = longestRun (eventDays events) := by
  have hstreak : (analyzeEvents events).activityStreak =
      streakOf (sortStrings (keysOf
        ((events.foldl analyzeStep ⟨[], [], [], List.replicate 24 0⟩).dailyActivity))) := rfl
  rw [hstreak, foldl_analyzeStep_daily]
  have hmemkeys : ∀ j, j ∈ keysOf (events.foldl dailyStep []) ↔
      ∃ e ∈ events, ∃ s, e.created_at = some s ∧ dateOf s = j ∧ dateOf s ≠ "" := by
    intro j
    rw [mem_keysOf_dailyFold]
    simp [keysOf]
  have hnodupkeys : (keysOf (events.foldl dailyStep [])).Nodup :=
    nodup_keysOf_dailyFold events [] (by simp [keysOf])
  have hkeyparse : ∀ j ∈ keysOf (events.foldl dailyStep []), ∃ a : DateTriple,
      parseDateOnly j = some a ∧ 1 ≤ a.month ∧ a.month ≤ 12 ∧
      1 ≤ a.day ∧ a.day ≤ monthLen a.year a.month := by
    intro j hj
    rcases (hmemkeys j).mp hj with ⟨e, he, s, hs, hjeq, _⟩
    have hc := hcanon e he s hs
    rcases canonicalTs_parse hc with ⟨tt, hts, hcan⟩
    have hpd := parseTimestamp_dateOf hts
    rcases parseDateOnly_inv hpd with ⟨_, _, _, _, _, _, _, _, _, _, _, _, _, h1, h2, h3, _⟩
    exact ⟨tt.date, hjeq ▸ hpd, h1, h2, h3, hcan⟩
  have hsortmem : ∀ j, j ∈ sortStrings (keysOf (events.foldl dailyStep [])) ↔
      j ∈ keysOf (events.foldl dailyStep []) := fun j => mem_sortStrings
  have hsortnd : (sortStrings (keysOf (events.foldl dailyStep []))).Nodup :=
    nodup_sortStrings hnodupkeys
  have hsortpw := @pairwise_sortStrings (keysOf (events.foldl dailyStep []))
  have hsortparse : ∀ s ∈ sortStrings (keysOf (events.foldl dailyStep [])),
      ∃ t, parseDateOnly s = some t := by
    intro s hs
    rcases hkeyparse s ((hsortmem s).mp hs) with ⟨a, hpa, _⟩
    exact ⟨a, hpa⟩
  rw [streakOf_bridge _ hsortparse]
  have hdayspw : ((sortStrings (keysOf (events.foldl dailyStep []))).map dayOfKey).Pairwise
      (· < ·) := by
    rw [List.pairwise_map]
    have hand := hsortpw.and hsortnd
    apply List.Pairwise.imp_of_mem ?_ hand
    intro a b ha hb hab
    rcases hkeyparse a ((hsortmem a).mp ha) with ⟨ta, hpa, hma1, hma2, hda1, hda2⟩
    rcases hkeyparse b ((hsortmem b).mp hb) with ⟨tb, hpb, hmb1, hmb2, hdb1, hdb2⟩
    exact dayOfKey_lt hpa hpb ⟨hma1, hma2⟩ ⟨hda1, hda2⟩ ⟨hmb1, hmb2⟩ ⟨hdb1, hdb2⟩
      hab.2 hab.1
  rw [streakN_eq_longestRun _ hdayspw]
  apply longestRun_congr hdayspw.nodup (List.nodup_dedup _)
  intro x
  constructor
  · intro hx
    rcases List.mem_map.mp hx with ⟨j, hj, rfl⟩
    rcases (hmemkeys j).mp ((hsortmem j).mp hj) with ⟨e, he, s, hs, hjeq, _⟩
    rcases hkeyparse j ((hsortmem j).mp hj) with ⟨a, hpa, _⟩
    rw [List.mem_dedup]
    apply List.mem_filterMap.mpr
    refine ⟨e, he, ?_⟩
    have hstep : eventDay e =
        (parseDateOnly (dateOf s)).map (fun t => dayNumber t.year t.month t.day) := by
      unfold eventDay
      rw [hs]
    rw [hstep, hjeq, hpa]
    simp [dayOfKey, hpa]
  · intro hx
    rw [List.mem_dedup] at hx
    rcases List.mem_filterMap.mp hx with ⟨e, he, hev⟩
    unfold eventDay at hev
    rcases hs : e.created_at with _ | s
    · rw [hs] at hev
      have hev' : (none : Option Nat) = some x := hev
      cases hev'
    · rw [hs] at hev
      have hev2 : (parseDateOnly (dateOf s)).map
          (fun t => dayNumber t.year t.month t.day) = some x := hev
      rcases hpj : parseDateOnly (dateOf s) with _ | a
      · rw [hpj] at hev2; cases hev2
      · rw [hpj] at hev2
        simp only [Option.map_some'] at hev2
        injection hev2 with hev
        have hne : dateOf s ≠ "" := parseDateOnly_ne_empty hpj
        have hjmem : dateOf s ∈ keysOf (events.foldl dailyStep []) :=
          (hmemkeys _).mpr ⟨e, he, s, hs, rfl, hne⟩
        apply List.mem_map.mpr
        refine ⟨dateOf s, (hsortmem _).mpr hjmem, ?_⟩
        simp [dayOfKey, hpj, hev]

/-- **C1, counterexample.**  The claim as stated quantifies over *every*
event list; an event whose present timestamp is malformed (here
`"garbage"`) contributes the bogus day key `"garbage"` to the daily map, so
`analyzeEvents` reports a streak of 1 while no calendar day contains an
event (the longest run of consecutive calendar days has length 0). -/
theorem C1_streak_counterexample :
    ¬ ((analyzeEvents [mkEvent "PushEvent" (some "u/r") (some "garbage")]).activityStreak =
       longestRun (eventDays [mkEvent "PushEvent" (some "u/r") (some "garbage")])) := by
  decide

/-- **C1 (amended).**  For every event list in which each present timestamp
is a canonical ISO timestamp (`YYYY-MM-DD` or `YYYY-MM-DDTHH:MM:SSZ` with
the day within the month), `analyzeEvents` returns `activityStreak` equal to
the length of the longest run of consecutive calendar days — taken from the
date portion of each event's timestamp — each containing at least one
event; in particular one event on each of 2024-01-15, 2024-01-16 and
2024-01-17 yields streak 3, and an empty event list yields streak 0. -/
theorem C1_activityStreak (events : List GhEvent)
    (hcanon : ∀ e ∈ events, ∀ s, e.created_at = some s → canonicalTs s = true) :
    (analyzeEvents events).activityStreak = longestRun (eventDays events) :=
  analyzeEvents_streak_eq events hcanon

/-- Witness for C1: the three-consecutive-day example from the claim. -/
theorem C1_activityStreak_witness :
    (∀ e ∈ [mkEvent "PushEvent" (some "u/r") (some "2024-01-15T10:00:00Z"),
            mkEvent "PushEvent" (some "u/r") (some "2024-01-16T11:00:00Z"),
            mkEvent "IssuesEvent" none (some "2024-01-17T12:00:00Z")],
      ∀ s, e.created_at = some s → canonicalTs s = true) ∧
    (analyzeEvents [mkEvent "PushEvent" (some "u/r") (some "2024-01-15T10:00:00Z"),
            mkEvent "PushEvent" (some "u/r") (some "2024-01-16T11:00:00Z"),
            mkEvent "IssuesEvent" none (some "2024-01-17T12:00:00Z")]).activityStreak =
      longestRun (eventDays
        [mkEvent "PushEvent" (some "u/r") (some "2024-01-15T10:00:00Z"),
         mkEvent "PushEvent" (some "u/r") (some "2024-01-16T11:00:00Z"),
         mkEvent "IssuesEvent" none (some "2024-01-17T12:00:00Z")]) ∧
    (analyzeEvents [mkEvent "PushEvent" (some "u/r") (some "2024-01-15T10:00:00Z"),
            mkEvent "PushEvent" (some "u/r") (some "2024-01-16T11:00:00Z"),
            mkEvent "IssuesEvent" none (some "2024-01-17T12:00:00Z")]).activityStreak = 3 :=
  ⟨by decide, C1_activityStreak _ (by decide), by decide⟩

/-! ## C2: counts add up -/

theorem nodup_keysOf_countsFold : ∀ (l : List String) (m : List (String × Nat)),
    (keysOf m).Nodup → (keysOf (l.foldl bumpKey m)).Nodup
  | [], _, h => h
  | k :: ks, m, h => by
    simp only [List.foldl_cons]
    exact nodup_keysOf_countsFold ks (bumpKey m k) (nodup_keysOf_addKey m k 1 h)

theorem valuesSum_countsFold : ∀ (l : List String) (m : List (String × Nat)),
    (keysOf m).Nodup → valuesSum (l.foldl bumpKey m) = valuesSum m + l.length
  | [], _, _ => by simp
  | k :: ks, m, h => by
    simp only [List.foldl_cons, List.length_cons]
    rw [valuesSum_countsFold ks (bumpKey m k) (nodup_keysOf_addKey m k 1 h),
      valuesSum_bumpKey m k h]
    omega

/-- **C2.**  For every event list, the per-kind counts of `analyzeEvents`
sum to the reported total event count, which is the length of the input. -/
theorem C2_counts_sum (events : List GhEvent) :
    valuesSum (analyzeEvents events).eventCounts = (analyzeEvents events).totalEvents ∧
    (analyzeEvents events).totalEvents = events.length := by
  refine ⟨?_, rfl⟩
  have h1 : (analyzeEvents events).eventCounts =
      events.foldl (fun m e => bumpKey m e.type) analyzeInit.eventCounts :=
    foldl_analyzeStep_counts events analyzeInit
  have h2 : events.foldl (fun m e => bumpKey m e.type) analyzeInit.eventCounts =
      (events.map GhEvent.type).foldl bumpKey analyzeInit.eventCounts := by
    rw [List.foldl_map]
  have h3 : (analyzeEvents events).totalEvents = events.length := rfl
  rw [h1, h2, h3, valuesSum_countsFold (events.map GhEvent.type) _ (by simp [keysOf, analyzeInit])]
  simp [valuesSum, analyzeInit]

/-! ## C3: malformed timestamps -/

/-- The event's timestamp is present and parses (`getHours()` is not
`NaN`). -/
def hasParseableTime (e : GhEvent) : Bool :=
  match e.created_at with
  | none => false
  | some s => (jsGetHours s).isSome

/-- The event's timestamp is present and its date portion is non-empty (the
truthiness test guarding the daily map). -/
def hasDayKey (e : GhEvent) : Bool :=
  match e.created_at with
  | none => false
  | some s => dateOf s ≠ ""

theorem sum_set_getD {l : List Nat} {i : Nat} (h : i < l.length) :
    (l.set i (l.getD i 0 + 1)).sum = l.sum + 1 := by
  induction l generalizing i with
  | nil => simp at h
  | cons a t ih =>
    cases i with
    | zero =>
      simp [List.getD]
      omega
    | succ j =>
      have hj : j < t.length := by simpa using h
      simp only [List.set_cons_succ, List.sum_cons, List.getD_cons_succ]
      rw [ih hj]
      omega

theorem hourlyStep_length (h : List Nat) (e : GhEvent) :
    (hourlyStep h e).length = h.length := by
  unfold hourlyStep
  rcases e.created_at with _ | s
  · rfl
  · simp only
    rcases jsGetHours s with _ | hr
    · rfl
    · simp [hourlyBump]

theorem hourlyStep_sum {h : List Nat} (hlen : h.length = 24) (e : GhEvent) :
    (hourlyStep h e).sum = h.sum + (if hasParseableTime e then 1 else 0) := by
  unfold hourlyStep hasParseableTime
  rcases e.created_at with _ | s
  · simp
  · simp only
    have hmain : ∀ (g : Option Nat), (∀ hr, g = some hr → hr < 24) →
        (match g with
          | none => h
          | some hr => hourlyBump h hr).sum = h.sum + (if g.isSome then 1 else 0) := by
      intro g hg
      rcases g with _ | hr
      · simp
      · have hlt := hg hr rfl
        simp only [Option.isSome_some, if_true]
        rw [show hourlyBump h hr = h.set hr (h.getD hr 0 + 1) from rfl]
        rw [sum_set_getD (by omega)]
    apply hmain
    intro hr hh
    unfold jsGetHours at hh
    rcases hp : parseTimestamp s with _ | t
    · rw [hp] at hh; cases hh
    · rw [hp] at hh
      simp only [Option.map_some'] at hh
      injection hh with hh
      subst hh
      exact parseTimestamp_hour_lt hp

theorem hourlyFold_sum : ∀ (events : List GhEvent) (h : List Nat), h.length = 24 →
    (events.foldl hourlyStep h).sum = h.sum + (events.filter hasParseableTime).length
  | [], h, _ => by simp
  | e :: es, h, hlen => by
    simp only [List.foldl_cons]
    rw [hourlyFold_sum es (hourlyStep h e) (by rw [hourlyStep_length]; exact hlen),
      hourlyStep_sum hlen e]
    by_cases hp : hasParseableTime e = true <;> simp [List.filter_cons, hp] <;> omega

theorem dailyStep_valuesSum {m : List (String × Nat)} (hnd : (keysOf m).Nodup)
    (e : GhEvent) :
    valuesSum (dailyStep m e) = valuesSum m + (if hasDayKey e then 1 else 0) := by
  unfold dailyStep hasDayKey
  rcases e.created_at with _ | s
  · simp
  · simp only
    by_cases hs : dateOf s = ""
    · rw [if_pos hs]
      simp [hs]
    · rw [if_neg hs, valuesSum_bumpKey m _ hnd]
      simp [hs]

theorem dailyStep_nodup {m : List (String × Nat)} (hnd : (keysOf m).Nodup)
    (e : GhEvent) : (keysOf (dailyStep m e)).Nodup := by
  unfold dailyStep
  rcases e.created_at with _ | s
  · exact hnd
  · simp only
    split_ifs with hs
    · exact hnd
    · exact nodup_keysOf_addKey m _ 1 hnd

theorem dailyFold_valuesSum : ∀ (events : List GhEvent) (m : List (String × Nat)),
    (keysOf m).Nodup →
    valuesSum (events.foldl dailyStep m) = valuesSum m + (events.filter hasDayKey).length
  | [], _, _ => by simp
  | e :: es, m, hnd => by
    simp only [List.foldl_cons]
    rw [dailyFold_valuesSum es (dailyStep m e) (dailyStep_nodup hnd e),
      dailyStep_valuesSum hnd e]
    by_cases hp : hasDayKey e = true <;> simp [List.filter_cons, hp] <;> omega

/-- **C3, counterexample.**  A present but malformed timestamp (`"garbage"`,
whose parse is invalid — `getHours()` is `NaN`) is *not* excluded from the
daily tracking: it lands in the daily map under the bogus key `"garbage"`. -/
theorem C3_malformed_counterexample :
    jsGetHours "garbage" = none ∧
    ¬ ((analyzeEvents [mkEvent "PushEvent" none (some "garbage")]).dailyActivity = []) := by
  decide

/-- **C3 (amended).**  For every event list: the hourly tracking counts
exactly the events whose timestamp parses (malformed or absent timestamps
are silently excluded), the daily tracking counts exactly the events whose
timestamp is present with a non-empty date portion (so a present but
malformed timestamp is *included*, under its bogus date-portion key), and
the per-kind counts and the total still count every event. -/
theorem C3_malformed_timestamps (events : List GhEvent) :
    ((events.foldl analyzeStep analyzeInit).hourly).sum =
      (events.filter hasParseableTime).length ∧
    valuesSum ((analyzeEvents events).dailyActivity) =
      (events.filter hasDayKey).length ∧
    valuesSum ((analyzeEvents events).eventCounts) = events.length ∧
    (analyzeEvents events).totalEvents = events.length := by
  refine ⟨?_, ?_, ?_, rfl⟩
  · rw [foldl_analyzeStep_hourly]
    rw [hourlyFold_sum events analyzeInit.hourly (by simp [analyzeInit])]
    simp [analyzeInit]
  · have h1 : (analyzeEvents events).dailyActivity =
        events.foldl dailyStep analyzeInit.dailyActivity :=
      foldl_analyzeStep_daily events analyzeInit
    rw [h1, dailyFold_valuesSum events _ (by simp [keysOf, analyzeInit])]
    simp [valuesSum, analyzeInit]
  · exact (C2_counts_sum events).1

/-! ## C6: peak hour -/

theorem le_maxOf {l : List Nat} {x : Nat} (h : x ∈ l) : x ≤ maxOf l := by
  induction l with
  | nil => cases h
  | cons a t ih =>
    rcases List.mem_cons.mp h with rfl | h'
    · simp [maxOf]
    · simp only [maxOf, List.foldr_cons]
      have := ih h'
      simp only [maxOf] at this
      omega

theorem maxOf_mem {l : List Nat} (h : l ≠ []) : maxOf l ∈ l := by
  induction l with
  | nil => exact absurd rfl h
  | cons a t ih =>
    rcases t with _ | ⟨b, t'⟩
    · simp [maxOf]
    · simp only [maxOf, List.foldr_cons] at *
      rcases Nat.le_total (max b (t'.foldr max 0)) a with hle | hle
      · have hm : max a (max b (t'.foldr max 0)) = a := by omega
        rw [hm]
        exact List.mem_cons_self _ _
      · right
        have : max a (max b (t'.foldr max 0)) = max b (t'.foldr max 0) := by omega
        rw [this]
        exact ih (by simp)

theorem findIdx_facts {p : Nat → Bool} : ∀ (l : List Nat), (∃ x ∈ l, p x = true) →
    l.findIdx p < l.length ∧ p (l.getD (l.findIdx p) 0) = true ∧
      ∀ i < l.findIdx p, p (l.getD i 0) = false
  | [], h => by simp at h
  | a :: t, h => by
    rw [List.findIdx_cons]
    by_cases hp : p a = true
    · simp only [hp, cond_true]
      exact ⟨by simp, by simpa using hp, fun i hi => absurd hi (by omega)⟩
    · have hpa : p a = false := by simpa using hp
      simp only [hpa, cond_false]
      rcases h with ⟨x, hx, hpx⟩
      rcases List.mem_cons.mp hx with rfl | hx'
      · rw [hpx] at hpa; cases hpa
      · rcases findIdx_facts t ⟨x, hx', hpx⟩ with ⟨h1, h2, h3⟩
        refine ⟨by simpa using h1, by simpa using h2, ?_⟩
        intro i hi
        cases i with
        | zero => simpa using hpa
        | succ j =>
          simp only [List.getD_cons_succ]
          exact h3 j (by omega)

theorem hourlyFold_length : ∀ (events : List GhEvent) (h : List Nat),
    (events.foldl hourlyStep h).length = h.length
  | [], _ => rfl
  | e :: es, h => by
    simp only [List.foldl_cons]
    rw [hourlyFold_length es (hourlyStep h e), hourlyStep_length]

/-- **C6.**  For every event list, `peakHour` is the first index attaining
the maximum of the 24-slot per-hour counter: it is below 24, holds the
maximum, and every lower index holds strictly less.  With two events at
hour 10 and one at hour 15 the peak hour is 10, and with no events the
all-zero array yields hour 0. -/
theorem C6_peakHour (events : List GhEvent) :
    ((analyzeEvents events).peakHour < 24 ∧
     ((events.foldl analyzeStep analyzeInit).hourly).getD (analyzeEvents events).peakHour 0 =
       maxOf ((events.foldl analyzeStep analyzeInit).hourly) ∧
     (∀ i < (analyzeEvents events).peakHour,
       ((events.foldl analyzeStep analyzeInit).hourly).getD i 0 <
         maxOf ((events.foldl analyzeStep analyzeInit).hourly))) ∧
    (analyzeEvents [mkEvent "PushEvent" none (some "2024-01-15T10:00:00Z"),
        mkEvent "PushEvent" none (some "2024-01-15T10:30:00Z"),
        mkEvent "IssuesEvent" none (some "2024-01-15T15:00:00Z")]).peakHour = 10 ∧
    (analyzeEvents ([] : List GhEvent)).peakHour = 0 := by
  refine ⟨?_, by decide, by decide⟩
  have hne : (events.foldl analyzeStep analyzeInit).hourly ≠ [] := by
    intro hcon
    have := congrArg List.length hcon
    rw [foldl_analyzeStep_hourly, hourlyFold_length] at this
    simp [analyzeInit] at this
  have hlen : ((events.foldl analyzeStep analyzeInit).hourly).length = 24 := by
    rw [foldl_analyzeStep_hourly, hourlyFold_length]
    simp [analyzeInit]
  have hpeak : (analyzeEvents events).peakHour =
      ((events.foldl analyzeStep analyzeInit).hourly).findIdx
        (fun v => v = maxOf ((events.foldl analyzeStep analyzeInit).hourly)) := rfl
  have hex : ∃ x ∈ (events.foldl analyzeStep analyzeInit).hourly,
      (fun v => (v = maxOf ((events.foldl analyzeStep analyzeInit).hourly) : Bool)) x = true := by
    refine ⟨maxOf _, maxOf_mem hne, by simp⟩
  rcases findIdx_facts _ hex with ⟨h1, h2, h3⟩
  refine ⟨by rw [hpeak]; omega, ?_, ?_⟩
  · rw [hpeak]
    simpa using h2
  · intro i hi
    rw [hpeak] at hi
    have := h3 i hi
    simp only [decide_eq_true_eq] at this
    have hmem : ((events.foldl analyzeStep analyzeInit).hourly).getD i 0 ∈
        (events.foldl analyzeStep analyzeInit).hourly := by
      have hilen : i < ((events.foldl analyzeStep analyzeInit).hourly).length := by omega
      rw [List.getD_eq_getElem _ _ hilen]
      exact List.getElem_mem hilen
    have hle := le_maxOf hmem
    have hne2 : ((events.foldl analyzeStep analyzeInit).hourly).getD i 0 ≠
        maxOf ((events.foldl analyzeStep analyzeInit).hourly) := by
      simpa using this
    omega

/-! ## The Contribution Aggregator (`fetchContributionStats`)

The network fetch of the repository list is replaced by the repository-list
parameter; everything below models the pure aggregation the function
performs on the fetched array. -/

/-- A repository, carrying exactly the fields the aggregation reads. -/
structure Repo where
  language : Option String
  size : Nat
  stargazers_count : Nat
  forks_count : Nat
deriving DecidableEq

/-- The aggregated contribution statistics. -/
structure ContributionStats where
  totalStars : Nat
  totalForks : Nat
  totalRepos : Nat
  languages : List (String × Nat)
  recentRepos : List Repo
deriving DecidableEq

/-- One step of the language-size accumulation:
`languageStats[repo.language] = (languageStats[repo.language] || 0) + repo.size`,
guarded by the truthiness of `repo.language`. -/
def langStep (m : List (String × Nat)) (r : Repo) : List (String × Nat) :=
  match r.language with
  | none => m
  | some l => if l = "" then m else addKey m l r.size

/-- The aggregation of `fetchContributionStats` over the fetched repository
list. -/
def fetchContributionStats (repos : List Repo) : ContributionStats :=
  { totalStars := repos.foldl (fun s r => s + r.stargazers_count) 0
    totalForks := repos.foldl (fun s r => s + r.forks_count) 0
    totalRepos := repos.length
    languages := (repos.take 20).foldl langStep []
    recentRepos := repos.take 10 }

theorem foldl_add_proj {α : Type} (f : α → Nat) : ∀ (l : List α) (a : Nat),
    l.foldl (fun s r => s + f r) a = a + (l.map f).sum
  | [], a => by simp
  | x :: xs, a => by
    simp only [List.foldl_cons, List.map_cons, List.sum_cons]
    rw [foldl_add_proj f xs (a + f x)]
    omega

theorem lookupKey_addKey {m : List (String × Nat)} (hnd : (keysOf m).Nodup)
    (k j : String) (n : Nat) :
    lookupKey (addKey m k n) j =
      if j = k then some ((lookupKey m k).getD 0 + n) else lookupKey m j := by
  unfold addKey lookupKey
  by_cases hany : m.any (fun p => p.1 = k) = true
  · rw [if_pos hany]
    simp only [List.any_eq_true, decide_eq_true_eq] at hany
    induction m with
    | nil => rcases hany with ⟨q, hq, _⟩; cases hq
    | cons p ps ih =>
      simp only [keysOf, List.map_cons, List.nodup_cons] at hnd
      by_cases hpk : p.1 = k
      · have hps : ∀ r ∈ ps, r.1 ≠ k := by
          intro r hr hrk
          apply hnd.1
          rw [hpk, ← hrk]
          exact List.mem_map.mpr ⟨r, hr, rfl⟩
        simp only [List.map_cons, if_pos hpk, map_update_id hps]
        by_cases hjk : j = k
        · subst hjk
          rw [if_pos rfl]
          have hd : (decide (p.1 = j)) = true := by simpa using hpk
          simp only [List.find?_cons, hd]
          simp
        · rw [if_neg hjk]
          have hpj : (decide (p.1 = j)) = false := by
            simp only [decide_eq_false_iff_not]
            intro hcon
            exact hjk (by rw [← hcon, hpk])
          simp only [List.find?_cons, hpj]
      · by_cases hjk : j = k
        · rw [if_pos hjk]
          subst hjk
          rcases hany with ⟨q, hq, hqk⟩
          rcases List.mem_cons.mp hq with rfl | hq'
          · exact absurd hqk hpk
          · have := ih hnd.2 ⟨q, hq', hqk⟩
            rw [if_pos rfl] at this
            have hpj : (decide (p.1 = j)) = false := by
              simp only [decide_eq_false_iff_not]
              intro hcon
              exact hpk hcon
            simp only [List.map_cons, if_neg hpk, List.find?_cons, hpj]
            exact this
        · rw [if_neg hjk]
          have hpfix : (if p.1 = k then (p.1, p.2 + n) else p) = p := by
            rw [if_neg hpk]
          rcases hany with ⟨q, hq, hqk⟩
          rcases List.mem_cons.mp hq with rfl | hq'
          · exact absurd hqk hpk
          · have := ih hnd.2 ⟨q, hq', hqk⟩
            rw [if_neg hjk] at this
            simp only [List.map_cons, if_neg hpk, List.find?_cons]
            by_cases hpj : (decide (p.1 = j)) = true
            · simp [hpj]
            · have hpj' : (decide (p.1 = j)) = false := by simpa using hpj
              simp only [hpj']
              exact this
  · rw [if_neg hany]
    simp only [List.any_eq_true, decide_eq_true_eq] at hany
    push_neg at hany
    by_cases hjk : j = k
    · subst hjk
      rw [if_pos rfl]
      have hfind : m.find? (fun p => p.1 = j) = none := by
        rw [List.find?_eq_none]
        intro p hp
        simp only [decide_eq_true_eq]
        exact hany p hp
      rw [List.find?_append, hfind]
      simp [List.find?_cons]
    · rw [if_neg hjk]
      rw [List.find?_append]
      rcases hf : m.find? (fun p => p.1 = j) with _ | q
      · rw [hf]
        simp only [Option.none_or]
        have hkj : List.find? (fun p => p.1 = j) [(k, n)] = none := by
          simp only [List.find?_cons, List.find?_nil]
          have hne : (decide ((k, n).1 = j)) = false := by
            simp only [decide_eq_false_iff_not]
            intro hcon
            exact hjk (by rw [← hcon])
          simp [hne]
        rw [hkj]
      · rw [hf]
        simp

theorem langStep_nodup {m : List (String × Nat)} (hnd : (keysOf m).Nodup) (r : Repo) :
    (keysOf (langStep m r)).Nodup := by
  unfold langStep
  rcases r.language with _ | l
  · exact hnd
  · simp only
    split_ifs with hl
    · exact hnd
    · exact nodup_keysOf_addKey m l r.size hnd

theorem langFold_lookup : ∀ (repos : List Repo) (m : List (String × Nat)),
    (keysOf m).Nodup → ∀ L, L ≠ "" →
    (lookupKey (repos.foldl langStep m) L).getD 0 =
      (lookupKey m L).getD 0 + ((repos.filter (fun r => r.language = some L)).map Repo.size).sum
  | [], m, _, L, _ => by simp
  | r :: rs, m, hnd, L, hL => by
    simp only [List.foldl_cons, List.filter_cons]
    rw [langFold_lookup rs (langStep m r) (langStep_nodup hnd r) L hL]
    unfold langStep
    rcases hlang : r.language with _ | l
    · simp [hlang]
    · simp only
      by_cases hl : l = ""
      · rw [if_pos hl]
        have hne : l ≠ L := fun hcon => hL (by rw [← hcon, hl])
        simp [hlang, hne]
      · rw [if_neg hl]
        rw [lookupKey_addKey hnd l L r.size]
        by_cases hLl : L = l
        · subst hLl
          rw [if_pos rfl]
          simp only [Option.getD_some]
          simp [hlang]
          omega
        · rw [if_neg hLl]
          have hne : l ≠ L := fun hcon => hLl hcon.symm
          simp [hlang, hne]

theorem langFold_mem : ∀ (repos : List Repo) (m : List (String × Nat)) (L : String),
    L ∈ keysOf (repos.foldl langStep m) ↔
      L ∈ keysOf m ∨ ∃ r ∈ repos, r.language = some L ∧ L ≠ ""
  | [], m, L => by simp
  | r :: rs, m, L => by
    simp only [List.foldl_cons]
    rw [langFold_mem rs (langStep m r) L]
    unfold langStep
    rcases hlang : r.language with _ | l
    · constructor
      · rintro (h | ⟨r', hr', hcond⟩)
        · exact Or.inl h
        · exact Or.inr ⟨r', List.mem_cons_of_mem _ hr', hcond⟩
      · rintro (h | ⟨r', hr', hcond⟩)
        · exact Or.inl h
        · rcases List.mem_cons.mp hr' with rfl | hr''
          · rw [hlang] at hcond; cases hcond.1
          · exact Or.inr ⟨r', hr'', hcond⟩
    · simp only
      by_cases hl : l = ""
      · rw [if_pos hl]
        constructor
        · rintro (h | ⟨r', hr', hcond⟩)
          · exact Or.inl h
          · exact Or.inr ⟨r', List.mem_cons_of_mem _ hr', hcond⟩
        · rintro (h | ⟨r', hr', hcond⟩)
          · exact Or.inl h
          · rcases List.mem_cons.mp hr' with rfl | hr''
            · rw [hlang] at hcond
              injection hcond.1 with hinj
              exact absurd (by rw [← hinj, hl]) hcond.2
            · exact Or.inr ⟨r', hr'', hcond⟩
      · rw [if_neg hl]
        constructor
        · rintro (h | ⟨r', hr', hcond⟩)
          · rcases mem_keysOf_addKey.mp h with h' | rfl
            · exact Or.inl h'
            · exact Or.inr ⟨r, List.mem_cons_self _ _, hlang, hl⟩
          · exact Or.inr ⟨r', List.mem_cons_of_mem _ hr', hcond⟩
        · rintro (h | ⟨r', hr', hcond⟩)
          · exact Or.inl (mem_keysOf_addKey.mpr (Or.inl h))
          · rcases List.mem_cons.mp hr' with rfl | hr''
            · rw [hlang] at hcond
              injection hcond.1 with hinj
              exact Or.inl (mem_keysOf_addKey.mpr (Or.inr hinj.symm))
            · exact Or.inr ⟨r', hr'', hcond⟩

/-- **C7.**  For every repository list, the contribution aggregation sums
stars and forks over the whole list, sums size per language over only the
first 20 entries (languageless entries skipped), reports the full length and
the first 10 entries verbatim, and maps the empty list to all-zero, empty
results. -/
theorem C7_fetchContributionStats (repos : List Repo) :
    (fetchContributionStats repos).totalStars = (repos.map Repo.stargazers_count).sum ∧
    (fetchContributionStats repos).totalForks = (repos.map Repo.forks_count).sum ∧
    (fetchContributionStats repos).totalRepos = repos.length ∧
    (fetchContributionStats repos).recentRepos = repos.take 10 ∧
    (∀ L, L ≠ "" → (lookupKey (fetchContributionStats repos).languages L).getD 0 =
      (((repos.take 20).filter (fun r => r.language = some L)).map Repo.size).sum) ∧
    (∀ L, L ∈ keysOf (fetchContributionStats repos).languages ↔
      ∃ r ∈ repos.take 20, r.language = some L ∧ L ≠ "") ∧
    fetchContributionStats [] = ⟨0, 0, 0, [], []⟩ := by
  refine ⟨?_, ?_, rfl, rfl, ?_, ?_, rfl⟩
  · rw [show (fetchContributionStats repos).totalStars =
        repos.foldl (fun s r => s + r.stargazers_count) 0 from rfl]
    rw [foldl_add_proj Repo.stargazers_count repos 0]
    omega
  · rw [show (fetchContributionStats repos).totalForks =
        repos.foldl (fun s r => s + r.forks_count) 0 from rfl]
    rw [foldl_add_proj Repo.forks_count repos 0]
    omega
  · intro L hL
    rw [show (fetchContributionStats repos).languages =
        (repos.take 20).foldl langStep [] from rfl]
    rw [langFold_lookup (repos.take 20) [] (by simp [keysOf]) L hL]
    simp [lookupKey]
  · intro L
    rw [show (fetchContributionStats repos).languages =
        (repos.take 20).foldl langStep [] from rfl]
    rw [langFold_mem (repos.take 20) [] L]
    simp [keysOf]

/-- Witness for C7: a concrete two-repository list exercising the
per-language sum with a non-empty language name. -/
theorem C7_fetchContributionStats_witness :
    ("JavaScript" : String) ≠ "" ∧
    (lookupKey (fetchContributionStats
        [⟨some "JavaScript", 5, 3, 1⟩, ⟨some "JavaScript", 7, 2, 2⟩]).languages
      "JavaScript").getD 0 =
      (((([⟨some "JavaScript", 5, 3, 1⟩, ⟨some "JavaScript", 7, 2, 2⟩] :
          List Repo).take 20).filter
        (fun r => r.language = some "JavaScript")).map Repo.size).sum :=
  ⟨by decide, ((C7_fetchContributionStats
      [⟨some "JavaScript", 5, 3, 1⟩, ⟨some "JavaScript", 7, 2, 2⟩]).2.2.2.2.1)
    "JavaScript" (by decide)⟩

/-! ## Decimal rendering of numbers

`String(n)` / template interpolation of a non-negative integer. -/

def digitChar (d : Nat) : Char := Char.ofNat (48 + d)

def natStrAux : Nat → Nat → List Char
  | 0, _ => []
  | fuel + 1, n => if n < 10 then [digitChar n] else natStrAux fuel (n / 10) ++ [digitChar (n % 10)]

/-- Decimal rendering of a `Nat`, as JavaScript renders integral numbers. -/
def natStr (n : Nat) : String := ⟨natStrAux (n + 1) n⟩

/-! ## The Summary Synthesizer (`generateActivitySummary`) -/

/-- The profile fields the synthesizer reads. -/
structure Profile where
  login : String
  name : Option String
  avatar_url : String
  html_url : String
deriving DecidableEq

/-- The input of the synthesizer (`activityData`). -/
structure ActivityData where
  profile : Profile
  events : List GhEvent
  eventAnalysis : EventAnalysis
  contributionStats : ContributionStats
deriving DecidableEq

/-- A notable pattern; `severity` is only set on streak patterns. -/
structure Pattern where
  ptype : String
  severity : Option String
  description : String
deriving DecidableEq

/-- A recent project record. -/
structure RecentProject where
  name : String
  fullName : String
  activityType : String
  lastActive : Option String
  detail : Option String
deriving DecidableEq

/-- The stats block of the summary. -/
structure SummaryStats where
  totalEvents : Nat
  totalRepos : Nat
  totalStars : Nat
  activityStreak : Nat
deriving DecidableEq

/-- The synthesized activity summary. -/
structure ActivitySummary where
  username : String
  displayName : String
  avatarUrl : String
  profileUrl : String
  notablePatterns : List Pattern
  achievements : List String
  activityHighlights : List String
  primaryLanguage : Option String
  languages : List String
  recentProjects : List RecentProject
  summary : String
  stats : SummaryStats
deriving DecidableEq

/-- `EVENT_DESCRIPTIONS[type] || type`. -/
def eventDescription (ty : String) : String :=
  if ty = "PushEvent" then "code commits"
  else if ty = "PullRequestEvent" then "pull requests"
  else if ty = "IssuesEvent" then "issues"
  else if ty = "CreateEvent" then "repository/branch creations"
  else if ty = "DeleteEvent" then "branch deletions"
  else if ty = "WatchEvent" then "repository stars"
  else if ty = "ForkEvent" then "repository forks"
  else if ty = "IssueCommentEvent" then "issue comments"
  else if ty = "PullRequestReviewEvent" then "code reviews"
  else if ty = "PullRequestReviewCommentEvent" then "review comments"
  else if ty = "CommitCommentEvent" then "commit comments"
  else if ty = "ReleaseEvent" then "releases"
  else if ty = "PublicEvent" then "repository publications"
  else if ty = "MemberEvent" then "collaborator additions"
  else if ty = "GollumEvent" then "wiki updates"
  else ty

/-- `repoName.split('/')[1] || repoName`. -/
def shortName (rn : String) : String :=
  match (rn.splitOn "/").get? 1 with
  | some s => if s = "" then rn else s
  | none => rn

/-- The project record built for the first event seen on a repository. -/
def projectOfEvent (e : GhEvent) (rn : String) : RecentProject :=
  { name := shortName rn
    fullName := rn
    activityType := eventDescription e.type
    lastActive := e.created_at
    detail :=
      if e.type = "PushEvent" then
        match e.payloadCommits with
        | some n => some (natStr n ++ " commit" ++ (if 1 < n then "s" else ""))
        | none => none
      else if e.type = "PullRequestEvent" then e.payloadPullRequestTitle
      else if e.type = "IssuesEvent" then e.payloadIssueTitle
      else if e.type = "CreateEvent" then
        match e.payloadRefType with
        | some rt => some ("Created " ++ rt)
        | none => none
      else none }

/-- `extractRecentProjects`: first event per repository wins, insertion
order, capped at 5. -/
def extractRecentProjects (events : List GhEvent) : List RecentProject :=
  (events.foldl (fun acc e =>
    match e.repoName with
    | none => acc
    | some rn =>
      if rn = "" then acc
      else if acc.any (fun p => p.fullName = rn) then acc
      else acc ++ [projectOfEvent e rn]) []).take 5

/-- The four fixed schedule buckets keyed by `peakHour`. -/
def timeDescription (peakHour : Nat) : String :=
  if peakHour < 6 then "a night owl, most active in the early morning hours"
  else if peakHour < 12 then "an early bird, most productive in the morning"
  else if peakHour < 18 then "most active during afternoon hours"
  else "an evening coder, most active in the late hours"

/-- `eventCounts.PushEvent && eventCounts.PushEvent / totalEvents > 0.5`.
The float quotient compares exactly like the rational one; `x / 0` is
`Infinity` for `x > 0`. -/
def pushHeavy (ea : EventAnalysis) : Bool :=
  match lookupKey ea.eventCounts "PushEvent" with
  | none => false
  | some p =>
    if p = 0 then false
    else if ea.totalEvents = 0 then true
    else decide (2 * p > ea.totalEvents)

/-- `Object.entries(languages).sort((a, b) => b[1] - a[1])[0]?.[0]`. -/
def primaryLanguageOf (langs : List (String × Nat)) : Option String :=
  match sortByCountDesc langs with
  | [] => none
  | p :: _ => some p.1

/-- `profile.name || profile.login`. -/
def displayNameOf (p : Profile) : String :=
  match p.name with
  | none => p.login
  | some n => if n = "" then p.login else n

/-- `generateHumanReadableSummary`. -/
def generateHumanReadableSummary (profile : Profile) (notablePatterns : List Pattern)
    (achievements : List String) (primaryLanguage : Option String)
    (recentProjects : List RecentProject) (cs : ContributionStats) : String :=
  let name := displayNameOf profile
  let line1 :=
    match primaryLanguage with
    | some l =>
      if l = "" then name ++ " is an active developer on GitHub."
      else name ++ " is a developer who primarily works with " ++ l ++ "."
    | none => name ++ " is an active developer on GitHub."
  let lines2 :=
    match notablePatterns.find? (fun p => p.ptype = "schedule") with
    | some p => ["They are " ++ p.description ++ "."]
    | none => []
  let lines3 :=
    match notablePatterns.find? (fun p => p.ptype = "streak") with
    | some p =>
      if p.severity = some "exceptional" then
        ["Impressively, they\x27ve maintained a " ++ p.description ++ "!"]
      else ["They\x27ve been on a " ++ p.description ++ "."]
    | none => []
  let lines4 :=
    if recentProjects = [] then []
    else ["Recently active on: " ++
      String.intercalate ", " ((recentProjects.take 3).map RecentProject.name) ++ "."]
  let lines5 :=
    if achievements = [] then []
    else ["Notable: " ++ String.intercalate ", " achievements ++ "."]
  let lines6 :=
    if 0 < cs.totalRepos ∨ 0 < cs.totalStars then
      ["Stats: " ++ String.intercalate ", "
        ((if 0 < cs.totalRepos then [natStr cs.totalRepos ++ " repositories"] else []) ++
         (if 0 < cs.totalStars then [natStr cs.totalStars ++ " stars earned"] else [])) ++ "."]
    else []
  String.intercalate " " ([line1] ++ lines2 ++ lines3 ++ lines4 ++ lines5 ++ lines6)

/-- The Summary Synthesizer: `generateActivitySummary(activityData)`. -/
def generateActivitySummary (ad : ActivityData) : ActivitySummary :=
  let ea := ad.eventAnalysis
  let cs := ad.contributionStats
  let notablePatterns :=
    (if 7 ≤ ea.activityStreak then
      [⟨"streak",
        some (if 30 ≤ ea.activityStreak then "exceptional" else "notable"),
        natStr ea.activityStreak ++ "-day activity streak"⟩]
     else []) ++
    [⟨"schedule", none, timeDescription ea.peakHour⟩]
  let reviewer := decide (5 < (lookupKey ea.eventCounts "PullRequestReviewEvent").getD 0)
  let issues := decide (10 < (lookupKey ea.eventCounts "IssuesEvent").getD 0)
  let activityHighlights :=
    (match ea.mostActiveRepo with
     | none => []
     | some rn =>
       if rn = "" then []
       else ["Heavily focused on \x22" ++ shortName rn ++ "\x22"]) ++
    (if pushHeavy ea then ["Primarily focused on pushing code"] else []) ++
    (if reviewer then ["Active code reviewer"] else []) ++
    (if issues then ["Active issue tracker"] else [])
  let achievements :=
    (if reviewer then ["Code Review Champion"] else []) ++
    (if 100 ≤ cs.totalStars then ["Earned " ++ natStr cs.totalStars ++ " stars"] else []) ++
    (if 50 ≤ cs.totalRepos then ["Prolific creator with 50+ repositories"] else []) ++
    (if 5 ≤ (keysOf cs.languages).length then
      ["Polyglot developer using " ++ natStr (keysOf cs.languages).length ++ " languages"]
     else [])
  let primaryLanguage := primaryLanguageOf cs.languages
  let recentProjects := extractRecentProjects ad.events
  { username := ad.profile.login
    displayName := displayNameOf ad.profile
    avatarUrl := ad.profile.avatar_url
    profileUrl := ad.profile.html_url
    notablePatterns := notablePatterns
    achievements := achievements
    activityHighlights := activityHighlights
    primaryLanguage := primaryLanguage
    languages := (keysOf cs.languages).take 5
    recentProjects := recentProjects
    summary := generateHumanReadableSummary ad.profile notablePatterns achievements
      primaryLanguage recentProjects cs
    stats := ⟨ea.totalEvents, cs.totalRepos, cs.totalStars, ea.activityStreak⟩ }

/-- **C8.**  For every synthesizer input, a streak pattern appears in
`notablePatterns` iff the activity streak is at least 7; when present its
severity is "exceptional" for a streak of at least 30 and "notable"
otherwise; and for a concrete input with streak 2 no streak pattern is
emitted. -/
theorem C8_streak_pattern (ad : ActivityData) :
    ((∃ p ∈ (generateActivitySummary ad).notablePatterns, p.ptype = "streak") ↔
      7 ≤ ad.eventAnalysis.activityStreak) ∧
    (∀ p ∈ (generateActivitySummary ad).notablePatterns, p.ptype = "streak" →
      p.severity = some (if 30 ≤ ad.eventAnalysis.activityStreak then "exceptional"
        else "notable")) ∧
    ¬ (∃ p ∈ (generateActivitySummary
        ⟨⟨"u", none, "a", "h"⟩, [], ⟨[], [], 0, 2, 0, none, []⟩,
         ⟨0, 0, 0, [], []⟩⟩).notablePatterns, p.ptype = "streak") := by
  have hpat : (generateActivitySummary ad).notablePatterns =
      (if 7 ≤ ad.eventAnalysis.activityStreak then
        [⟨"streak",
          some (if 30 ≤ ad.eventAnalysis.activityStreak then "exceptional" else "notable"),
          natStr ad.eventAnalysis.activityStreak ++ "-day activity streak"⟩]
       else []) ++
      [⟨"schedule", none, timeDescription ad.eventAnalysis.peakHour⟩] := rfl
  refine ⟨?_, ?_, by decide⟩
  · rw [hpat]
    by_cases h7 : 7 ≤ ad.eventAnalysis.activityStreak
    · rw [if_pos h7]
      constructor
      · intro _; exact h7
      · intro _
        exact ⟨_, List.mem_cons_self _ _, rfl⟩
    · rw [if_neg h7]
      constructor
      · rintro ⟨p, hp, hps⟩
        have hp2 : p ∈ [(⟨"schedule", none,
            timeDescription ad.eventAnalysis.peakHour⟩ : Pattern)] := hp
        have hpe := List.mem_singleton.mp hp2
        subst hpe
        simp at hps
      · intro h; exact absurd h h7
  · rw [hpat]
    intro p hp hps
    by_cases h7 : 7 ≤ ad.eventAnalysis.activityStreak
    · rw [if_pos h7] at hp
      rcases List.mem_cons.mp hp with rfl | hp'
      · rfl
      · have hpe := List.mem_singleton.mp hp'
        subst hpe
        simp at hps
    · rw [if_neg h7] at hp
      have hp2 : p ∈ [(⟨"schedule", none,
          timeDescription ad.eventAnalysis.peakHour⟩ : Pattern)] := hp
      have hpe := List.mem_singleton.mp hp2
      subst hpe
      simp at hps

/-- Witness for C8: an input with streak 30 produces a streak pattern with
severity "exceptional". -/
theorem C8_streak_pattern_witness :
    (∃ p ∈ (generateActivitySummary
        ⟨⟨"u", none, "a", "h"⟩, [], ⟨[], [], 0, 30, 0, none, []⟩,
         ⟨0, 0, 0, [], []⟩⟩).notablePatterns, p.ptype = "streak") ∧
    (∀ p ∈ (generateActivitySummary
        ⟨⟨"u", none, "a", "h"⟩, [], ⟨[], [], 0, 30, 0, none, []⟩,
         ⟨0, 0, 0, [], []⟩⟩).notablePatterns, p.ptype = "streak" →
      p.severity = some "exceptional") := by
  refine ⟨(C8_streak_pattern _).1.mpr (by decide), ?_⟩
  intro p hp hps
  have h := (C8_streak_pattern
    ⟨⟨"u", none, "a", "h"⟩, [], ⟨[], [], 0, 30, 0, none, []⟩,
     ⟨0, 0, 0, [], []⟩⟩).2.1 p hp hps
  simpa using h

/-- **C4, counterexample.**  The `languages` field of the summary keeps the
insertion order of the language map, not descending size order: with sizes
A ↦ 1 and B ↦ 2 (inserted in that order) the produced list is
["A", "B"], whose size sequence [1, 2] is not descending. -/
theorem C4_languages_counterexample :
    ¬ (List.Pairwise (fun a b => b ≤ a)
        (((generateActivitySummary
          ⟨⟨"u", none, "a", "h"⟩, [], ⟨[], [], 0, 0, 0, none, []⟩,
           ⟨0, 0, 0, [("A", 1), ("B", 2)], []⟩⟩).languages).map
          (fun n => (lookupKey [("A", 1), ("B", 2)] n).getD 0))) := by
  decide

/-- **C4 (amended).**  For every synthesizer input, the `languages` field of
the produced summary contains at most 5 language names, in the order the
languages were first encountered (the insertion order of the language
mapping) — not sorted by summed size. -/
theorem C4_languages (ad : ActivityData) :
    (generateActivitySummary ad).languages =
      (keysOf ad.contributionStats.languages).take 5 ∧
    (generateActivitySummary ad).languages.length ≤ 5 := by
  refine ⟨rfl, ?_⟩
  rw [show (generateActivitySummary ad).languages =
      (keysOf ad.contributionStats.languages).take 5 from rfl]
  rw [List.length_take]
  exact min_le_left _ _

/-! ## Markup escaping (`escapeHtml` in the card generator) -/

/-- Global single-character replacement, the effect of
`String.prototype.replace` with a one-character global regex. -/
def replChar (pat : Char) (rep : List Char) (l : List Char) : List Char :=
  (l.map (fun c => if c = pat then rep else [c])).join

/-- The five sequential replacements of `escapeHtml`. -/
def escapeHtmlL (l : List Char) : List Char :=
  replChar '\x27' "&#39;".data
    (replChar '"' "&quot;".data
      (replChar '>' "&gt;".data
        (replChar '<' "&lt;".data
          (replChar '&' "&amp;".data l))))

/-- `escapeHtml(str)`; the `!str` guard returns `""` for the empty string
(and for non-string falsy values, which cannot occur here). -/
def escapeHtml (s : String) : String :=
  if s = "" then "" else ⟨escapeHtmlL s.data⟩

theorem replChar_append (pat : Char) (rep : List Char) (a b : List Char) :
    replChar pat rep (a ++ b) = replChar pat rep a ++ replChar pat rep b := by
  simp [replChar]

theorem escapeHtmlL_append (a b : List Char) :
    escapeHtmlL (a ++ b) = escapeHtmlL a ++ escapeHtmlL b := by
  simp [escapeHtmlL, replChar_append]

theorem mem_replChar {c : Char} {pat : Char} {rep l : List Char}
    (h : c ∈ replChar pat rep l) : c ∈ rep ∨ (c ∈ l ∧ c ≠ pat) := by
  unfold replChar at h
  rcases List.mem_join.mp h with ⟨piece, hpiece, hc⟩
  rcases List.mem_map.mp hpiece with ⟨d, hd, rfl⟩
  by_cases hdp : d = pat
  · rw [if_pos hdp] at hc
    exact Or.inl hc
  · rw [if_neg hdp] at hc
    rcases List.mem_singleton.mp hc with rfl
    exact Or.inr ⟨hd, hdp⟩

/-- The escaped text never contains `<`. -/
theorem escapeHtmlL_no_lt {l : List Char} (h : ('<' : Char) ∈ escapeHtmlL l) : False := by
  unfold escapeHtmlL at h
  rcases mem_replChar h with h1 | ⟨h1, _⟩
  · simp at h1
  rcases mem_replChar h1 with h2 | ⟨h2, _⟩
  · simp at h2
  rcases mem_replChar h2 with h3 | ⟨h3, _⟩
  · simp at h3
  rcases mem_replChar h3 with h4 | ⟨_, h4⟩
  · simp at h4
  · exact h4 rfl

/-- Escaping preserves contiguous substrings (it maps characters to blocks
independently). -/
theorem escapeHtmlL_infix {p l : List Char} (h : p <:+: l) :
    escapeHtmlL p <:+: escapeHtmlL l := by
  rcases h with ⟨u, v, rfl⟩
  rw [escapeHtmlL_append, escapeHtmlL_append]
  exact ⟨escapeHtmlL u, escapeHtmlL v, rfl⟩

/-- The escape of `<script>`. -/
theorem escapeHtmlL_script :
    escapeHtmlL "<script>".data = "&lt;script&gt;".data := by decide

/-! ## Markup-safety scanner

A three-state scanner for the character sequence `<sc` (the decisive prefix
of `<script>`).  A string is *good* when, starting neutral, the scanner
never completes `<sc` and ends neutral; goodness composes over
concatenation, every escaped or digit-only fragment is good, and the fixed
template fragments are checked by evaluation. -/

/-- Scanner step: state is the matched prefix length of `<sc` (0, 1, 2);
`none` means the forbidden sequence was completed. -/
def scSt (st : Nat) (c : Char) : Option Nat :=
  if st = 2 ∧ c = 'c' then none
  else some (if c = '<' then 1 else if st = 1 ∧ c = 's' then 2 else 0)

/-- Run the scanner. -/
def scRun : Option Nat → List Char → Option Nat
  | none, _ => none
  | some st, [] => some st
  | some st, c :: rest => scRun (scSt st c) rest

/-- A good string: scanned from the neutral state, the scanner survives and
ends neutral. -/
def GoodS (s : String) : Prop := scRun (some 0) s.data = some 0

instance goodSDecidable (s : String) : Decidable (GoodS s) := by
  unfold GoodS
  infer_instance

theorem scRun_none (l : List Char) : scRun none l = none := by
  cases l <;> rfl

theorem scRun_append (o : Option Nat) (a b : List Char) :
    scRun o (a ++ b) = scRun (scRun o a) b := by
  induction a generalizing o with
  | nil =>
    rcases o with _ | st
    · rw [scRun_none, scRun_none, scRun_none]
    · rfl
  | cons c cs ih =>
    rcases o with _ | st
    · rw [scRun_none, scRun_none, scRun_none]
    · simp only [List.cons_append]
      rw [show scRun (some st) (c :: (cs ++ b)) = scRun (scSt st c) (cs ++ b) from rfl]
      rw [show scRun (some st) (c :: cs) = scRun (scSt st c) cs from rfl]
      exact ih (scSt st c)

theorem GoodS_append {a b : String} (ha : GoodS a) (hb : GoodS b) : GoodS (a ++ b) := by
  unfold GoodS at *
  rw [String.data_append, scRun_append, ha, hb]

/-- A good string contains no occurrence of `<sc`, hence none of
`<script>`. -/
theorem GoodS_no_sc {s : String} (hg : GoodS s) :
    ¬ (['<', 's', 'c'] <:+: s.data) := by
  rintro ⟨u, v, huv⟩
  unfold GoodS at hg
  rw [← huv] at hg
  rw [show u ++ ['<', 's', 'c'] ++ v = u ++ (['<', 's', 'c'] ++ v) by simp] at hg
  rw [scRun_append] at hg
  rcases hrun : scRun (some 0) u with _ | st
  · rw [hrun, scRun_none] at hg
    cases hg
  · rw [hrun] at hg
    have h1 : scSt st '<' = some 1 := by
      unfold scSt
      rw [if_neg (by simp)]
      rw [if_pos rfl]
    have hg2 : scRun (some 1) (['s', 'c'] ++ v) = some 0 := by
      rw [show (['<', 's', 'c'] ++ v : List Char) = '<' :: (['s', 'c'] ++ v) by simp] at hg
      rw [show scRun (some st) ('<' :: (['s', 'c'] ++ v)) =
        scRun (scSt st '<') (['s', 'c'] ++ v) from rfl, h1] at hg
      exact hg
    have h2 : scSt 1 's' = some 2 := by decide
    have hg3 : scRun (some 2) ('c' :: v) = some 0 := by
      rw [show (['s', 'c'] ++ v : List Char) = 's' :: ('c' :: v) by simp] at hg2
      rw [show scRun (some 1) ('s' :: ('c' :: v)) =
        scRun (scSt 1 's') ('c' :: v) from rfl, h2] at hg2
      exact hg2
    have h3 : scSt 2 'c' = none := by decide
    rw [show scRun (some 2) ('c' :: v) = scRun (scSt 2 'c') v from rfl, h3,
      scRun_none] at hg3
    cases hg3

/-- A `<`-free string is good. -/
theorem GoodS_of_no_lt {s : String} (h : ∀ c ∈ s.data, c ≠ '<') : GoodS s := by
  unfold GoodS
  have haux : ∀ l : List Char, (∀ c ∈ l, c ≠ '<') → scRun (some 0) l = some 0 := by
    intro l
    induction l with
    | nil => intro _; rfl
    | cons c cs ih =>
      intro hl
      have hc := hl c (List.mem_cons_self _ _)
      have hstep : scSt 0 c = some 0 := by
        unfold scSt
        rw [if_neg (by simp)]
        rw [if_neg hc]
        simp
      rw [show scRun (some 0) (c :: cs) = scRun (scSt 0 c) cs from rfl, hstep]
      exact ih (fun d hd => hl d (List.mem_cons_of_mem _ hd))
  exact haux s.data h

/-- Escaped text is good. -/
theorem GoodS_escapeHtml (s : String) : GoodS (escapeHtml s) := by
  unfold escapeHtml
  split_ifs with h
  · rfl
  · apply GoodS_of_no_lt
    intro c hc hlt
    exact escapeHtmlL_no_lt (hlt ▸ hc)

theorem digitChar_toNat {d : Nat} (h : d < 10) : (digitChar d).toNat = 48 + d := by
  interval_cases d <;> decide

theorem natStrAux_digits : ∀ (fuel n : Nat) (c : Char), c ∈ natStrAux fuel n →
    48 ≤ c.toNat ∧ c.toNat ≤ 57
  | 0, _, _, h => by cases h
  | fuel + 1, n, c, h => by
    unfold natStrAux at h
    split_ifs at h with hlt
    · rcases List.mem_singleton.mp h with rfl
      rw [digitChar_toNat hlt]
      omega
    · rcases List.mem_append.mp h with h1 | h1
      · exact natStrAux_digits fuel (n / 10) c h1
      · rcases List.mem_singleton.mp h1 with rfl
        rw [digitChar_toNat (Nat.mod_lt n (by omega))]
        have := Nat.mod_lt n (show 0 < 10 by omega)
        omega

/-- Decimal renderings are good (digits only). -/
theorem GoodS_natStr (n : Nat) : GoodS (natStr n) := by
  apply GoodS_of_no_lt
  intro c hc hlt
  have := natStrAux_digits (n + 1) n c hc
  subst hlt
  simp at this

/-! ## Number/string coercions used by the cards -/

/-- JavaScript whitespace (the ASCII part; the exotic Unicode space
characters never occur in this program's data). -/
def isJsWsCh (c : Char) : Bool :=
  c = ' ' || c = '\t' || c = '\n' || c = '\x0d' || c = '\x0b' || c = '\x0c'

/-- `String.prototype.trim()`. -/
def jsTrim (s : String) : String :=
  ⟨((s.data.dropWhile isJsWsCh).reverse.dropWhile isJsWsCh).reverse⟩

/-- The unsigned magnitude of a decimal numeral: digits with an optional
fraction.  Exponents, `Infinity` and hex literals never arise from the
strings this program coerces; any such string is modelled as `NaN`
(`none`). -/
def jsNumMag (sign : ℚ) (u : List Char) : Option ℚ :=
  match u.dropWhile isDigitCh with
  | [] =>
    if u.takeWhile isDigitCh = [] then none
    else some (sign * (dvalL (u.takeWhile isDigitCh) : ℚ))
  | '.' :: frac =>
    if frac.all isDigitCh then
      if u.takeWhile isDigitCh = [] ∧ frac = [] then none
      else some (sign * ((dvalL (u.takeWhile isDigitCh) : ℚ) +
        (dvalL frac : ℚ) / ((10 : ℚ) ^ frac.length)))
    else none
  | _ => none

/-- The signed core of `Number(s)` after trimming. -/
def jsNumCore (t : List Char) : Option ℚ :=
  match t with
  | '+' :: r => jsNumMag 1 r
  | '-' :: r => jsNumMag (-1) r
  | r => jsNumMag 1 r

/-- `Number(s)`: trim, empty is 0, otherwise the decimal core. -/
def jsNumberOfString (s : String) : Option ℚ :=
  let t := ((s.data.dropWhile isJsWsCh).reverse.dropWhile isJsWsCh).reverse
  if t = [] then some 0 else jsNumCore t

/-- `parseFloat(s)` on the same subset: the longest numeric prefix, `NaN`
when there is none.  The strings this program parses are either the full
numeral or `"NaN"`, so prefix-stripping never triggers. -/
def jsParseFloat (s : String) : Option ℚ :=
  let u0 := s.data.dropWhile isJsWsCh
  let (sign, u) : ℚ × List Char := match u0 with
    | '+' :: r => (1, r)
    | '-' :: r => (-1, r)
    | r => (1, r)
  let intPart := u.takeWhile isDigitCh
  let rest := u.drop intPart.length
  let fracPart := match rest with
    | '.' :: fr => fr.takeWhile isDigitCh
    | _ => []
  if intPart = [] ∧ fracPart = [] then none
  else some (sign * ((dvalL intPart : ℚ) +
    (dvalL fracPart : ℚ) / ((10 : ℚ) ^ fracPart.length)))

/-- `Number.prototype.toFixed(1)` on an exact rational (ties round away
from zero, as the specification's "larger n" rule does after the sign
split). -/
def toFixed1 (q : ℚ) : String :=
  (if q < 0 then "-" else "") ++
  (natStr ((Int.floor (|q| * 10 + 1 / 2)).toNat / 10) ++ "." ++
   natStr ((Int.floor (|q| * 10 + 1 / 2)).toNat % 10))

/-- Decimal rendering of an interpolated number.  Double-precision decimal
artifacts and fractions beyond ten digits are abstracted to the exact
expansion; no claim inspects these characters. -/
def ratFracDigits : Nat → ℚ → List Char
  | 0, _ => []
  | fuel + 1, q =>
    if q = 0 then []
    else
      digitChar (Int.floor (q * 10)).toNat ::
        ratFracDigits fuel (q * 10 - ((Int.floor (q * 10) : Int) : ℚ))

def jsNumStr (q : ℚ) : String :=
  (if q < 0 then "-" else "") ++ natStr (Int.floor |q|).toNat ++
    (if |q| - ((Int.floor |q| : Int) : ℚ) = 0 then ""
     else "." ++ ⟨ratFracDigits 10 (|q| - ((Int.floor |q| : Int) : ℚ))⟩)

/-! ## The languages card (`generateLanguagesCard`)

The pipeline hands this function `summaryData.languages`, a list of plain
language-name strings, while the function destructures each entry as a
`[lang, size]` pair.  Destructuring a string yields its first two code
points (`name[0]`, `name[1]`); the reduce accumulator is therefore the
number `0`, then — per ECMAScript `+` — either the numeric `NaN` (after
adding `undefined` to a number) or a string.  `SumVal` enumerates exactly
these accumulator shapes. -/

/-- `name[1]`: the second code point of the entry, `undefined` when the
entry is shorter. -/
def jsChar1 (s : String) : Option Char := s.data.get? 1

/-- `name[0]` as the one-character string the destructuring produces (an
empty entry would give `undefined`, which the label loop would crash on;
pipeline names are never empty). -/
def jsChar0Str (s : String) : String :=
  match s.data.head? with
  | some c => String.singleton c
  | none => ""

/-- The accumulator of `languages.reduce((sum, [_, size]) => sum + size, 0)`
when the entries are strings. -/
inductive SumVal
  | num0
  | nan
  | str (s : String)
deriving DecidableEq

/-- One reduce step, per ECMAScript addition:
number + undefined = NaN, string + undefined appends `"undefined"`,
number + one-char string stringifies the number (`"0"` / `"NaN"`) and
concatenates. -/
def sumStep (sum : SumVal) (name : String) : SumVal :=
  match jsChar1 name, sum with
  | none, .num0 => .nan
  | none, .nan => .nan
  | none, .str s => .str (s ++ "undefined")
  | some c, .num0 => .str ("0" ++ String.singleton c)
  | some c, .nan => .str ("NaN" ++ String.singleton c)
  | some c, .str s => .str (s ++ String.singleton c)

def totalSizeVal (names : List String) : SumVal := names.foldl sumStep SumVal.num0

/-- `... || 1`: the falsy accumulators (`0`, `NaN`, `""`) become the number
`1`; a non-empty string stays. -/
inductive TotalVal
  | one
  | str (s : String)
deriving DecidableEq

def applyOr1 : SumVal → TotalVal
  | .num0 => .one
  | .nan => .one
  | .str s => if s = "" then .one else .str s

/-- `(size / totalSize * 100).toFixed(1)`: `ToNumber` both operands
(`undefined` → `NaN`), divide (0/0 → `NaN`, x/0 → ±`Infinity`), scale,
format. -/
def percentageStr (size : Option Char) (total : TotalVal) : String :=
  match (match size with
         | none => none
         | some c => jsNumberOfString (String.singleton c)),
        (match total with
         | .one => some (1 : ℚ)
         | .str s => jsNumberOfString s) with
  | some a, some b =>
    if b = 0 then (if a = 0 then "NaN" else if 0 < a then "Infinity" else "-Infinity")
    else toFixed1 (a / b * 100)
  | _, _ => "NaN"

/-- The fixed language-color table; unknown keys fall back to `#858585`. -/
def languageColor (lang : String) : String :=
  if lang = "JavaScript" then "#f1e05a"
  else if lang = "TypeScript" then "#2b7489"
  else if lang = "Python" then "#3572A5"
  else if lang = "Java" then "#b07219"
  else if lang = "Go" then "#00ADD8"
  else if lang = "Rust" then "#dea584"
  else if lang = "Ruby" then "#701516"
  else if lang = "PHP" then "#4F5D95"
  else if lang = "C++" then "#f34b7d"
  else if lang = "C" then "#555555"
  else if lang = "C#" then "#178600"
  else if lang = "Swift" then "#ffac45"
  else if lang = "Kotlin" then "#F18E33"
  else if lang = "Scala" then "#c22d40"
  else if lang = "Shell" then "#89e051"
  else if lang = "HTML" then "#e34c26"
  else if lang = "CSS" then "#563d7c"
  else if lang = "Vue" then "#41b883"
  else if lang = "Dart" then "#00B4AB"
  else if lang = "Elixir" then "#6e4a7e"
  else "#858585"

/-- One entry of `languageData`. -/
structure LangDatum where
  name : String
  percentage : String
  color : String
deriving DecidableEq

/-- `languageData` as computed from the pipeline's string entries. -/
def languageData (langs : List String) : List LangDatum :=
  (langs.take 5).map (fun l =>
    { name := jsChar0Str l
      percentage := percentageStr (jsChar1 l) (applyOr1 (totalSizeVal langs))
      color := languageColor (jsChar0Str l) })

/-- Header of the languages card, at the default options (theme `default`,
width 300, compact layout — height 100, border shown, radius 4.5).  All
claims about the cards quantify over the summary with default options, so
the options are fixed here. -/
def langCardHeader : String :=
  "\n<svg width=\"300\" height=\"100\" viewBox=\"0 0 300 100\"\n     fill=\"none\" xmlns=\"http://www.w3.org/2000/svg\">\n  <style>\n    .title \x7b font: 600 14px \x27Segoe UI\x27, Ubuntu, Sans-Serif; fill: #2f80ed; \x7d\n    .lang-name \x7b font: 400 11px \x27Segoe UI\x27, Ubuntu, Sans-Serif; fill: #434d58; \x7d\n    .lang-percent \x7b font: 600 11px \x27Segoe UI\x27, Ubuntu, Sans-Serif; fill: #434d58; \x7d\n  </style>\n\n  <rect x=\"0.5\" y=\"0.5\" rx=\"4.5\" width=\"299\" height=\"99\"\n        fill=\"#ffffff\" stroke=\"#e4e2e2\" stroke-width=\"1\" stroke-opacity=\"1\"/>\n\n  <text x=\"15\" y=\"25\" class=\"title\">Most Used Languages</text>\n"

/-- The progress-bar segments: a segment is drawn (and the cursor advanced)
only when `parseFloat(percentage) / 100 * barWidth > 0`; a `NaN` percentage
draws nothing. -/
def langBarSegs : ℚ → List LangDatum → String
  | _, [] => ""
  | barX, lang :: rest =>
    match jsParseFloat lang.percentage with
    | none => langBarSegs barX rest
    | some p =>
      if 0 < p / 100 * 270 then
        "\n    <rect x=\"" ++ jsNumStr barX ++ "\" y=\"0\" width=\"" ++
          jsNumStr (p / 100 * 270) ++ "\" height=\"8\" fill=\"" ++ lang.color ++
          "\" rx=\"1\"/>\n" ++ langBarSegs (barX + p / 100 * 270) rest
      else langBarSegs barX rest

/-- One language label row (`labelX`/`labelY` follow the three-per-row
layout of the loop). -/
def langLabel (i : Nat) (lang : LangDatum) : String :=
  "\n  <g transform=\"translate(" ++ natStr (15 + (i % 3) * 90) ++ ", " ++
    natStr (60 + (i / 3) * 20) ++ ")\">\n    <circle cx=\"4\" cy=\"5\" r=\"4\" fill=\"" ++
    lang.color ++ "\"/>\n    <text x=\"12\" y=\"9\" class=\"lang-name\">" ++
    escapeHtml lang.name ++ "</text>\n    <text x=\"" ++
    natStr (12 + lang.name.length * 6 + 5) ++
    "\" y=\"9\" class=\"lang-percent\">" ++ lang.percentage ++
    "%</text>\n  </g>\n"

/-- The languages card (`generateLanguagesCard`) applied to a pipeline
summary, at the default options. -/
def generateLanguagesCard (summary : ActivitySummary) : String :=
  let data := languageData summary.languages
  jsTrim (langCardHeader ++
    "<g transform=\"translate(0, 40)\">" ++ langBarSegs 15 data ++ "</g>" ++
    String.join ((data.enum).map (fun p => langLabel p.1 p.2)) ++
    "\n</svg>")

/-- A character that can never occur inside a decimal numeral and is not
whitespace; one occurrence after the first position makes `Number` return
`NaN`. -/
def isBadNumChar (c : Char) : Bool :=
  !(isDigitCh c) && !(c = '.') && !(c = 'e') && !(c = 'E') && !(c = '+') &&
    !(c = '-') && !(isJsWsCh c)

theorem mem_dropWhile_of_not {p : Char → Bool} {c : Char} {l : List Char}
    (hc : c ∈ l) (hp : p c = false) : c ∈ l.dropWhile p := by
  have hsplit : l.takeWhile p ++ l.dropWhile p = l := List.takeWhile_append_dropWhile p l
  rw [← hsplit] at hc
  rcases List.mem_append.mp hc with h | h
  · have := List.mem_takeWhile_imp h
    rw [hp] at this; cases this
  · exact h

theorem dropWhile_append_of_mem {p : Char → Bool} {a b : List Char}
    (h : ∃ c ∈ a, p c = false) : (a ++ b).dropWhile p = a.dropWhile p ++ b := by
  induction a with
  | nil =>
    rcases h with ⟨c, hc, _⟩
    cases hc
  | cons x xs ih =>
    by_cases hx : p x = true
    · rw [List.cons_append, List.dropWhile_cons_of_pos hx, List.dropWhile_cons_of_pos hx]
      rcases h with ⟨c, hc, hpc⟩
      rcases List.mem_cons.mp hc with rfl | hc'
      · rw [hx] at hpc; cases hpc
      · exact ih ⟨c, hc', hpc⟩
    · have hx' : p x = false := by simpa using hx
      rw [List.cons_append, List.dropWhile_cons_of_neg (by simp [hx']),
        List.dropWhile_cons_of_neg (by simp [hx'])]
      rfl

theorem jsNumMag_none {u : List Char} (hbad : ∃ c ∈ u, isBadNumChar c = true)
    (sign : ℚ) : jsNumMag sign u = none := by
  rcases hbad with ⟨c, hc, hbadc⟩
  have hcdig : isDigitCh c = false := by
    unfold isBadNumChar at hbadc
    simp only [Bool.and_eq_true, Bool.not_eq_true'] at hbadc
    exact hbadc.1.1.1.1.1.1
  have hcdot : c ≠ '.' := by
    unfold isBadNumChar at hbadc
    simp only [Bool.and_eq_true, Bool.not_eq_true'] at hbadc
    intro hcon
    have := hbadc.1.1.1.1.1.2
    rw [hcon] at this
    simp at this
  have hrest : c ∈ u.dropWhile isDigitCh := mem_dropWhile_of_not hc hcdig
  unfold jsNumMag
  split
  case _ heq => rw [heq] at hrest; cases hrest
  case _ frac heq =>
    rw [heq] at hrest
    rcases List.mem_cons.mp hrest with rfl | hcf
    · exact absurd rfl hcdot
    · have hall : frac.all isDigitCh = false := by
        rw [Bool.eq_false_iff]
        intro hcon
        have := List.all_eq_true.mp hcon c hcf
        rw [hcdig] at this; cases this
      rw [hall]
      simp
  case _ => rfl

/-! ## C5: the pipeline mismatch between the summary and the languages card -/

theorem str_data_append (a b : String) : (a ++ b).data = a.data ++ b.data := rfl

def badSecond (n : String) : Bool :=
  match jsChar1 n with
  | some c => isBadNumChar c
  | none => false

def accOk : SumVal → Prop
  | .num0 => True
  | .nan => True
  | .str s => (∃ tl, s.data = '0' :: tl) ∨ (∃ tl, s.data = 'N' :: 'a' :: tl)

def accBad : SumVal → Prop
  | .str s => ∃ h1 tl, s.data = h1 :: tl ∧ ∃ c ∈ tl, isBadNumChar c = true
  | _ => False

theorem accOk_sumStep (a : SumVal) (n : String) (h : accOk a) : accOk (sumStep a n) := by
  cases a with
  | num0 =>
    cases hc : jsChar1 n with
    | none =>
      rw [show sumStep SumVal.num0 n = SumVal.nan from by unfold sumStep; rw [hc]]
      trivial
    | some c =>
      rw [show sumStep SumVal.num0 n = SumVal.str ("0" ++ String.singleton c) from by
        unfold sumStep; rw [hc]]
      exact Or.inl ⟨[c], rfl⟩
  | nan =>
    cases hc : jsChar1 n with
    | none =>
      rw [show sumStep SumVal.nan n = SumVal.nan from by unfold sumStep; rw [hc]]
      trivial
    | some c =>
      rw [show sumStep SumVal.nan n = SumVal.str ("NaN" ++ String.singleton c) from by
        unfold sumStep; rw [hc]]
      exact Or.inr ⟨'N' :: [c], rfl⟩
  | str s =>
    cases hc : jsChar1 n with
    | none =>
      rw [show sumStep (SumVal.str s) n = SumVal.str (s ++ "undefined") from by
        unfold sumStep; rw [hc]]
      rcases h with ⟨tl, hdat⟩ | ⟨tl, hdat⟩
      · exact Or.inl ⟨tl ++ "undefined".data, by rw [str_data_append, hdat]; rfl⟩
      · exact Or.inr ⟨tl ++ "undefined".data, by rw [str_data_append, hdat]; rfl⟩
    | some c =>
      rw [show sumStep (SumVal.str s) n = SumVal.str (s ++ String.singleton c) from by
        unfold sumStep; rw [hc]]
      rcases h with ⟨tl, hdat⟩ | ⟨tl, hdat⟩
      · exact Or.inl ⟨tl ++ [c], by rw [str_data_append, hdat]; rfl⟩
      · exact Or.inr ⟨tl ++ [c], by rw [str_data_append, hdat]; rfl⟩

theorem accBad_sumStep {a : SumVal} (h : accBad a) (n : String) : accBad (sumStep a n) := by
  cases a with
  | num0 => exact False.elim h
  | nan => exact False.elim h
  | str s =>
    rcases h with ⟨h1, tl, hdat, c, hc, hbadc⟩
    cases hc2 : jsChar1 n with
    | none =>
      rw [show sumStep (SumVal.str s) n = SumVal.str (s ++ "undefined") from by
        unfold sumStep; rw [hc2]]
      exact ⟨h1, tl ++ "undefined".data, by rw [str_data_append, hdat]; rfl,
        c, List.mem_append_left _ hc, hbadc⟩
    | some d =>
      rw [show sumStep (SumVal.str s) n = SumVal.str (s ++ String.singleton d) from by
        unfold sumStep; rw [hc2]]
      exact ⟨h1, tl ++ [d], by rw [str_data_append, hdat]; rfl,
        c, List.mem_append_left _ hc, hbadc⟩

theorem accBad_intro {a : SumVal} (hok : accOk a) {n : String} (hb : badSecond n = true) :
    accBad (sumStep a n) := by
  unfold badSecond at hb
  cases hc : jsChar1 n with
  | none => rw [hc] at hb; cases hb
  | some c =>
    rw [hc] at hb
    cases a with
    | num0 =>
      rw [show sumStep SumVal.num0 n = SumVal.str ("0" ++ String.singleton c) from by
        unfold sumStep; rw [hc]]
      exact ⟨'0', [c], rfl, c, List.mem_singleton.mpr rfl, hb⟩
    | nan =>
      rw [show sumStep SumVal.nan n = SumVal.str ("NaN" ++ String.singleton c) from by
        unfold sumStep; rw [hc]]
      exact ⟨'N', ['a', 'N', c], rfl, c, by simp, hb⟩
    | str s =>
      rw [show sumStep (SumVal.str s) n = SumVal.str (s ++ String.singleton c) from by
        unfold sumStep; rw [hc]]
      rcases hok with ⟨tl, hdat⟩ | ⟨tl, hdat⟩
      · exact ⟨'0', tl ++ [c], by rw [str_data_append, hdat]; rfl,
          c, List.mem_append_right _ (List.mem_singleton.mpr rfl), hb⟩
      · exact ⟨'N', ('a' :: tl) ++ [c], by rw [str_data_append, hdat]; rfl,
          c, List.mem_append_right _ (List.mem_singleton.mpr rfl), hb⟩

theorem foldl_sumStep_invariant : ∀ (names : List String) (a : SumVal), accOk a →
    (accBad a ∨ ∃ n ∈ names, badSecond n = true) →
    accOk (names.foldl sumStep a) ∧ accBad (names.foldl sumStep a)
  | [], a, hok, hcond => by
    rcases hcond with hb | ⟨n, hn, _⟩
    · exact ⟨hok, hb⟩
    · cases hn
  | m :: rest, a, hok, hcond => by
    rw [List.foldl_cons]
    apply foldl_sumStep_invariant rest (sumStep a m) (accOk_sumStep a m hok)
    rcases hcond with hb | ⟨n, hn, hbn⟩
    · exact Or.inl (accBad_sumStep hb m)
    · rcases List.mem_cons.mp hn with rfl | hn2
      · exact Or.inl (accBad_intro hok hbn)
      · exact Or.inr ⟨n, hn2, hbn⟩

theorem jsNumberOfString_none {s : String} {h0 : Char} {tl : List Char}
    (hdata : s.data = h0 :: tl) (hh1 : h0 ≠ '+') (hh2 : h0 ≠ '-')
    (hh3 : isJsWsCh h0 = false)
    (hbad : ∃ c ∈ tl, isBadNumChar c = true) :
    jsNumberOfString s = none := by
  rcases hbad with ⟨c, hc, hbadc⟩
  have hcw : isJsWsCh c = false := by
    unfold isBadNumChar at hbadc
    simp only [Bool.and_eq_true, Bool.not_eq_true'] at hbadc
    exact hbadc.2
  unfold jsNumberOfString
  rw [hdata]
  rw [List.dropWhile_cons_of_neg (by simp [hh3])]
  rw [show (h0 :: tl).reverse = tl.reverse ++ [h0] from by simp]
  rw [dropWhile_append_of_mem ⟨c, List.mem_reverse.mpr hc, hcw⟩]
  rw [List.reverse_append, List.reverse_singleton, List.singleton_append]
  rw [if_neg (by simp)]
  have hcm : c ∈ (tl.reverse.dropWhile isJsWsCh).reverse :=
    List.mem_reverse.mpr (mem_dropWhile_of_not (List.mem_reverse.mpr hc) hcw)
  unfold jsNumCore
  split
  case _ r heq =>
    exact absurd (List.cons.injEq _ _ _ _ ▸ heq).1 hh1
  case _ r heq =>
    exact absurd (List.cons.injEq _ _ _ _ ▸ heq).1 hh2
  case _ =>
    exact jsNumMag_none ⟨c, List.mem_cons_of_mem _ hcm, hbadc⟩ 1

theorem totalSizeVal_nan {names : List String}
    (h : ∃ n ∈ names, badSecond n = true) :
    ∃ s : String, applyOr1 (totalSizeVal names) = TotalVal.str s ∧
      jsNumberOfString s = none := by
  obtain ⟨hok, hbad⟩ := foldl_sumStep_invariant names SumVal.num0 trivial (Or.inr h)
  cases hacc : totalSizeVal names with
  | num0 => rw [show totalSizeVal names = names.foldl sumStep SumVal.num0 from rfl] at hacc
            rw [hacc] at hbad; exact False.elim hbad
  | nan => rw [show totalSizeVal names = names.foldl sumStep SumVal.num0 from rfl] at hacc
           rw [hacc] at hbad; exact False.elim hbad
  | str s =>
    rw [show totalSizeVal names = names.foldl sumStep SumVal.num0 from rfl] at hacc
    rw [hacc] at hbad hok
    rcases hbad with ⟨h1, tl, hdat, c, hc, hbadc⟩
    refine ⟨s, ?_, ?_⟩
    · have hne : ¬ (s = "") := by
        intro hcon
        rw [hcon] at hdat
        exact List.noConfusion (show ([] : List Char) = h1 :: tl from hdat)
      simp only [applyOr1]
      rw [if_neg hne]
    · rcases hok with ⟨tl2, hdat2⟩ | ⟨tl2, hdat2⟩
      · refine jsNumberOfString_none hdat2 (by decide) (by decide) (by decide) ?_
        rw [hdat] at hdat2
        have he : tl = tl2 := (List.cons.injEq _ _ _ _ ▸ hdat2).2
        exact ⟨c, he ▸ hc, hbadc⟩
      · exact jsNumberOfString_none hdat2 (by decide) (by decide) (by decide)
          ⟨'a', List.mem_cons_self _ _, by decide⟩

theorem percentageStr_nan {total : TotalVal} {s : String}
    (h : total = TotalVal.str s) (hn : jsNumberOfString s = none) (size : Option Char) :
    percentageStr size total = "NaN" := by
  cases size with
  | none => simp only [percentageStr, h, hn]
  | some c =>
    simp only [percentageStr, h, hn]
    cases jsNumberOfString (String.singleton c) <;> rfl

/-- **C5 (amended).**  For every pipeline input in which some summary
language name has a second character that can occur neither in a decimal
numeral nor as whitespace, every percentage label of the languages card is
the string "NaN" and every language label is the first character of a
language name: the summary hands the card plain name strings, the card
destructures them as (name, size) pairs, and the accumulated "sizes" form a
string that does not coerce to a number. -/
theorem C5_languages_pipeline (ad : ActivityData)
    (h : ∃ n ∈ (generateActivitySummary ad).languages, badSecond n = true) :
    ((languageData (generateActivitySummary ad).languages).map LangDatum.percentage
        = (generateActivitySummary ad).languages.map (fun _ => "NaN")) ∧
    ((languageData (generateActivitySummary ad).languages).map LangDatum.name
        = (generateActivitySummary ad).languages.map jsChar0Str) := by
  obtain ⟨s, hstr, hnone⟩ := totalSizeVal_nan h
  have htake : (generateActivitySummary ad).languages.take 5
      = (generateActivitySummary ad).languages := by
    show ((keysOf ad.contributionStats.languages).take 5).take 5
      = (keysOf ad.contributionStats.languages).take 5
    rw [List.take_take]
    norm_num
  unfold languageData
  rw [htake, List.map_map, List.map_map]
  constructor
  · refine List.map_congr_left ?_
    intro l _
    exact percentageStr_nan hstr hnone (jsChar1 l)
  · rfl

theorem jsNum_one : jsNumberOfString (String.singleton '1') = some 1 := by
  have e : jsNumberOfString (String.singleton '1')
      = some ((1 : ℚ) * ((dvalL ['1'] : ℕ) : ℚ)) := rfl
  rw [e, show dvalL ['1'] = 1 from rfl]
  norm_num

theorem jsNum_zeroOne : jsNumberOfString "01" = some 1 := by
  have e : jsNumberOfString "01"
      = some ((1 : ℚ) * ((dvalL ['0', '1'] : ℕ) : ℚ)) := rfl
  rw [e, show dvalL ['0', '1'] = 1 from rfl]
  norm_num

theorem toFixed1_hundred : toFixed1 ((1 : ℚ) / 1 * 100) = "100.0" := by
  have h100 : ((1 : ℚ) / 1 * 100) = 100 := by norm_num
  rw [h100]
  unfold toFixed1
  rw [if_neg (by norm_num)]
  rw [show |(100 : ℚ)| = 100 from by norm_num]
  rw [show (⌊(100 : ℚ) * 10 + 1 / 2⌋ : ℤ) = 1000 from by norm_num [Int.floor_eq_iff]]
  rfl

theorem percentage_eleven : percentageStr (some '1') (applyOr1 (totalSizeVal ["11"])) = "100.0" := by
  have ht : applyOr1 (totalSizeVal ["11"]) = TotalVal.str "01" := rfl
  rw [ht]
  simp only [percentageStr, jsNum_one, jsNum_zeroOne]
  rw [if_neg (by norm_num)]
  exact toFixed1_hundred

/-- **C5 counterexample.**  The unrestricted claim is false: a repository
whose language is named "11" makes the destructured "size" a digit
character and the accumulated total the string "01", so the percentage renders as
"100.0", not "NaN". -/
theorem C5_languages_counterexample :
    ∃ d ∈ languageData (generateActivitySummary
        ⟨⟨"u", none, "a", "h"⟩, [], ⟨[], [], 0, 0, 0, none, []⟩,
          fetchContributionStats [⟨some "11", 5, 0, 0⟩]⟩).languages,
      ¬ (d.percentage = "NaN") := by
  have hl : (generateActivitySummary
      ⟨⟨"u", none, "a", "h"⟩, [], ⟨[], [], 0, 0, 0, none, []⟩,
        fetchContributionStats [⟨some "11", 5, 0, 0⟩]⟩).languages = ["11"] := rfl
  rw [hl]
  have hdata : languageData ["11"]
      = [⟨"1", percentageStr (some '1') (applyOr1 (totalSizeVal ["11"])), "#858585"⟩] := rfl
  rw [hdata, percentage_eleven]
  exact ⟨⟨"1", "100.0", "#858585"⟩, List.mem_singleton.mpr rfl, by decide⟩

/-- Witness for C5: a single repository in JavaScript (second character
'a') drives every percentage to "NaN" and every label to the first
character "J". -/
theorem C5_languages_pipeline_witness :
    (∃ n ∈ (generateActivitySummary
        ⟨⟨"u", none, "a", "h"⟩, [], ⟨[], [], 0, 0, 0, none, []⟩,
          fetchContributionStats [⟨some "JavaScript", 5, 0, 0⟩]⟩).languages,
        badSecond n = true) ∧
    ((languageData (generateActivitySummary
        ⟨⟨"u", none, "a", "h"⟩, [], ⟨[], [], 0, 0, 0, none, []⟩,
          fetchContributionStats [⟨some "JavaScript", 5, 0, 0⟩]⟩).languages).map
            LangDatum.percentage
        = (generateActivitySummary
        ⟨⟨"u", none, "a", "h"⟩, [], ⟨[], [], 0, 0, 0, none, []⟩,
          fetchContributionStats [⟨some "JavaScript", 5, 0, 0⟩]⟩).languages.map
            (fun _ => "NaN")) ∧
    ((languageData (generateActivitySummary
        ⟨⟨"u", none, "a", "h"⟩, [], ⟨[], [], 0, 0, 0, none, []⟩,
          fetchContributionStats [⟨some "JavaScript", 5, 0, 0⟩]⟩).languages).map
            LangDatum.name
        = (generateActivitySummary
        ⟨⟨"u", none, "a", "h"⟩, [], ⟨[], [], 0, 0, 0, none, []⟩,
          fetchContributionStats [⟨some "JavaScript", 5, 0, 0⟩]⟩).languages.map
            jsChar0Str) :=
  ⟨by decide, C5_languages_pipeline
    ⟨⟨"u", none, "a", "h"⟩, [], ⟨[], [], 0, 0, 0, none, []⟩,
      fetchContributionStats [⟨some "JavaScript", 5, 0, 0⟩]⟩ (by decide)⟩

/-! ## C9: the activity card (`generateActivityCard`) and markup escaping

The card is embedded at its default options (theme `default`, width 495,
border shown, radius 4.5, stats and projects shown).  String `.length` is
the code-point count (all data in this program is within the basic plane).
-/


/-- `wrapText` inner loop step. -/
def wrapStep (maxChars : Nat) (acc : List String × String) (word : String) :
    List String × String :=
  let candidate := jsTrim (acc.2 ++ " " ++ word)
  if candidate.length ≤ maxChars then (acc.1, candidate)
  else ((if acc.2 = "" then acc.1 else acc.1 ++ [acc.2]), word)

/-- `wrapText(text, maxChars)`. -/
def wrapText (text : String) (maxChars : Nat) : List String :=
  if text = "" then []
  else
    let r := (text.splitOn " ").foldl (wrapStep maxChars) ([], "")
    if r.2 = "" then r.1 else r.1 ++ [r.2]

def langTruthy : Option String → Bool
  | some l => !(l = "")
  | none => false

def projDetail (p : RecentProject) : String :=
  match p.detail with
  | none => ""
  | some d =>
    if d = "" then ""
    else " - " ++ (⟨d.data.take 40⟩ : String) ++ (if 40 < d.length then "..." else "")

def cardA1 : String := "<svg width=\"495\" height=\""
def cardA2 : String := "\" viewBox=\"0 0 495 "
def cardA3 : String := "\"\n     fill=\"none\" xmlns=\"http://www.w3.org/2000/svg\">\n  <style>\n    .header \x7b font: 600 18px \x27Segoe UI\x27, Ubuntu, Sans-Serif; fill: #2f80ed; \x7d\n    .stat-label \x7b font: 400 12px \x27Segoe UI\x27, Ubuntu, Sans-Serif; fill: #434d58; \x7d\n    .stat-value \x7b font: 600 14px \x27Segoe UI\x27, Ubuntu, Sans-Serif; fill: #2f80ed; \x7d\n    .summary-text \x7b font: 400 13px \x27Segoe UI\x27, Ubuntu, Sans-Serif; fill: #434d58; \x7d\n    .project-name \x7b font: 600 12px \x27Segoe UI\x27, Ubuntu, Sans-Serif; fill: #2f80ed; \x7d\n    .project-detail \x7b font: 400 11px \x27Segoe UI\x27, Ubuntu, Sans-Serif; fill: #434d58; opacity: 0.8; \x7d\n    .section-title \x7b font: 600 13px \x27Segoe UI\x27, Ubuntu, Sans-Serif; fill: #2f80ed; \x7d\n    .achievement \x7b font: 400 11px \x27Segoe UI\x27, Ubuntu, Sans-Serif; fill: #2f80ed; \x7d\n    .language-tag \x7b font: 600 11px \x27Segoe UI\x27, Ubuntu, Sans-Serif; fill: #434d58; \x7d\n    @keyframes fadeIn \x7b\n      from \x7b opacity: 0; \x7d\n      to \x7b opacity: 1; \x7d\n    \x7d\n    .animate \x7b animation: fadeIn 0.3s ease-in-out forwards; \x7d\n  </style>\n\n  <rect x=\"0.5\" y=\"0.5\" rx=\"4.5\" width=\"494\" height=\""
def cardA4 : String := "\"\n        fill=\"#ffffff\" stroke=\"#e4e2e2\" stroke-width=\"1\" stroke-opacity=\"1\"/>\n"

/-- The fixed-width frame, at default options (theme `default`, width 495,
border shown, radius 4.5). -/
def cardFrame (h : Nat) : String :=
  cardA1 ++ natStr h ++ cardA2 ++ natStr h ++ cardA3 ++ natStr (h - 1) ++ cardA4

def cardH1 : String := "\n  <g transform=\"translate(25, 35)\">\n    <text class=\"header\">"
def cardH2 : String := "\x27s GitHub Activity</text>\n  </g>\n"

def cardL1 : String := "\n  <g transform=\"translate(25, 50)\">\n    <circle cx=\"6\" cy=\"5\" r=\"6\" fill=\"#2f80ed\"/>\n    <text x=\"18\" y=\"9\" class=\"language-tag\">"
def cardL2 : String := "</text>\n  </g>\n"

def langSection (pl : Option String) : String :=
  match pl with
  | none => ""
  | some l => if l = "" then "" else cardL1 ++ escapeHtml l ++ cardL2

def cardS1 : String := "\n  <text x=\"25\" y=\""
def cardS2 : String := "\" class=\"summary-text animate\" style=\"animation-delay: "
def cardS3 : String := "s\">\n    "
def cardS4 : String := "\n  </text>\n"

/-- One summary line; the delay is `i * 0.1` seconds (the exact decimal of
the double is abstracted to the exact rational expansion; the claims never
inspect these digit characters). -/
def summaryRow (y0 i : Nat) (line : String) : String :=
  cardS1 ++ natStr (y0 + i * 18) ++ cardS2 ++ jsNumStr ((i : ℚ) * (1 / 10)) ++
    cardS3 ++ escapeHtml line ++ cardS4

def summaryRowsFrom : Nat → Nat → List String → String
  | _, _, [] => ""
  | y0, i, line :: rest => summaryRow y0 i line ++ summaryRowsFrom y0 (i + 1) rest

def cardT1 : String := "\n  <g transform=\"translate(25, "
def cardT2 : String := ")\">\n    <text class=\"section-title\">Stats</text>\n  </g>\n"

def statItem (x y : Nat) (value label : String) : String :=
  "\n    <g transform=\"translate(" ++ natStr x ++ ", " ++ natStr y ++
    ")\">\n      <text class=\"stat-value\">" ++ escapeHtml value ++
    "</text>\n      <text y=\"14\" class=\"stat-label\">" ++ escapeHtml label ++
    "</text>\n    </g>\n"

/-- The stats section (`hideStats` is false at the defaults; the `|| 0`
fallbacks are the identity on the numeric fields). -/
def statsSection (sy : Nat) (st : SummaryStats) : String :=
  cardT1 ++ natStr sy ++ cardT2 ++
  statItem 25 (sy + 20) (natStr st.totalRepos) "Repositories" ++
  statItem 130 (sy + 20) (natStr st.totalStars) "Stars" ++
  statItem 235 (sy + 20) (natStr st.activityStreak ++ " days") "Activity Streak" ++
  statItem 340 (sy + 20) (natStr st.totalEvents) "Recent Events"

def cardP2 : String := ")\">\n    <text class=\"section-title\">Recent Projects</text>\n  </g>\n"

def projRow (y : Nat) (p : RecentProject) : String :=
  "\n  <g transform=\"translate(25, " ++ natStr y ++
    ")\">\n    <text class=\"project-name\">" ++ escapeHtml p.name ++
    "</text>\n    <text x=\"" ++ natStr (p.name.length * 7 + 5) ++
    "\" class=\"project-detail\">" ++ escapeHtml (projDetail p) ++
    "</text>\n  </g>\n"

def projRows : Nat → List RecentProject → String
  | _, [] => ""
  | y, p :: rest => projRow y p ++ projRows (y + 22) rest

def projSection (py : Nat) (ps : List RecentProject) : String :=
  if ps = [] then ""
  else cardT1 ++ natStr py ++ cardP2 ++ projRows (py + 20) (ps.take 3)

def achBadge (x : Nat) (a : String) : String :=
  "\n    <rect x=\"" ++ natStr x ++ "\" y=\"-10\" width=\"" ++
    natStr (a.length * 6 + 16) ++
    "\" height=\"18\" rx=\"9\" fill=\"#2f80ed\" opacity=\"0.2\"/>\n    <text x=\"" ++
    natStr (x + 8) ++ "\" y=\"3\" class=\"achievement\">" ++ escapeHtml a ++
    "</text>\n"

def achBadges : Nat → List String → String
  | _, [] => ""
  | x, a :: rest => achBadge x a ++ achBadges (x + (a.length * 6 + 16) + 8) rest

def achSection (ay : Nat) (achievements : List String) : String :=
  if achievements = [] then ""
  else cardT1 ++ natStr ay ++ ")\">\n" ++ achBadges 0 (achievements.take 3) ++ "\n  </g>\n"

def cardLines (sd : ActivitySummary) : List String := wrapText sd.summary 55

def cardY0 (sd : ActivitySummary) : Nat :=
  if langTruthy sd.primaryLanguage then 75 else 60

def cardSY (sd : ActivitySummary) : Nat := cardY0 sd + (cardLines sd).length * 18 + 15

def cardPY (sd : ActivitySummary) : Nat := cardSY sd + 60

def cardAY (sd : ActivitySummary) : Nat :=
  (if sd.recentProjects = [] then cardPY sd
   else cardPY sd + 20 + (sd.recentProjects.take 3).length * 22) + 10

def cardHeight (sd : ActivitySummary) : Nat :=
  max (120 + (cardLines sd).length * 18 + 20 + 50 +
    (if sd.recentProjects = [] then 0 else 30 + min sd.recentProjects.length 3 * 22) +
    (if sd.achievements = [] then 0 else 40)) 195

/-- The body of the activity card before the final `trim()`; the source
builds it as one template starting with a newline. -/
def activityCardBody (sd : ActivitySummary) : String :=
  cardFrame (cardHeight sd) ++
  (cardH1 ++ escapeHtml sd.displayName ++ cardH2) ++
  langSection sd.primaryLanguage ++
  summaryRowsFrom (cardY0 sd) 0 (cardLines sd) ++
  statsSection (cardSY sd) sd.stats ++
  projSection (cardPY sd) sd.recentProjects ++
  achSection (cardAY sd) sd.achievements ++
  "\n</svg>"

/-- `generateActivityCard(summaryData)` at the default options. -/
def generateActivityCard (sd : ActivitySummary) : String :=
  jsTrim ("\n" ++ activityCardBody sd)

theorem ratFracDigits_bounds : ∀ (fuel : Nat) (q : ℚ), 0 ≤ q → q < 1 →
    ∀ c ∈ ratFracDigits fuel q, 48 ≤ c.toNat ∧ c.toNat ≤ 57
  | 0, _, _, _, _, h => by cases h
  | fuel + 1, q, h0, h1, c, hc => by
    unfold ratFracDigits at hc
    split_ifs at hc with hq
    · cases hc
    · rcases List.mem_cons.mp hc with rfl | hc2
      · have hf0 : (0 : ℤ) ≤ ⌊q * 10⌋ := Int.floor_nonneg.mpr (by linarith)
        have hf10 : ⌊q * 10⌋ < 10 := by
          apply Int.floor_lt.mpr
          push_cast
          linarith
        have hd : ⌊q * 10⌋.toNat < 10 := by omega
        rw [digitChar_toNat hd]
        omega
      · have hle : ((⌊q * 10⌋ : ℤ) : ℚ) ≤ q * 10 := Int.floor_le _
        have hlt : q * 10 < ((⌊q * 10⌋ : ℤ) : ℚ) + 1 := Int.lt_floor_add_one _
        exact ratFracDigits_bounds fuel _ (by linarith) (by linarith) c hc2

/-- Decimal renderings of rationals are good: every character is a sign, a
digit or a dot. -/
theorem GoodS_jsNumStr (q : ℚ) : GoodS (jsNumStr q) := by
  apply GoodS_of_no_lt
  intro c hc hlt
  subst hlt
  unfold jsNumStr at hc
  rw [str_data_append, str_data_append] at hc
  rcases List.mem_append.mp hc with hc1 | hc2
  · rcases List.mem_append.mp hc1 with hs | hn
    · split_ifs at hs
      · rcases List.mem_singleton.mp hs with h
        cases h
      · cases hs
    · have := natStrAux_digits _ _ _ hn
      simp at this
  · split_ifs at hc2 with hz
    · cases hc2
    · rw [str_data_append] at hc2
      rcases List.mem_append.mp hc2 with hd | hf
      · rcases List.mem_singleton.mp hd with h
        cases h
      · have hle : ((⌊|q|⌋ : ℤ) : ℚ) ≤ |q| := Int.floor_le _
        have hlt2 : |q| < ((⌊|q|⌋ : ℤ) : ℚ) + 1 := Int.lt_floor_add_one _
        have := ratFracDigits_bounds 10 (|q| - ((⌊|q|⌋ : ℤ) : ℚ))
          (by linarith) (by linarith) _ hf
        simp at this

theorem GoodS_empty : GoodS "" := rfl

set_option maxRecDepth 8000 in
theorem GoodS_cardA3 : GoodS cardA3 := by decide

theorem GoodS_cardFrame (h : Nat) : GoodS (cardFrame h) := by
  unfold cardFrame
  exact GoodS_append (GoodS_append (GoodS_append (GoodS_append (GoodS_append
    (GoodS_append (by decide) (GoodS_natStr h)) (by decide)) (GoodS_natStr h))
    GoodS_cardA3) (GoodS_natStr (h - 1))) (by decide)

theorem GoodS_langSection (pl : Option String) : GoodS (langSection pl) := by
  unfold langSection
  rcases pl with _ | l
  · exact GoodS_empty
  · show GoodS (if l = "" then "" else cardL1 ++ escapeHtml l ++ cardL2)
    split_ifs
    · exact GoodS_empty
    · exact GoodS_append (GoodS_append (by decide) (GoodS_escapeHtml l)) (by decide)

theorem GoodS_summaryRow (y0 i : Nat) (line : String) : GoodS (summaryRow y0 i line) := by
  unfold summaryRow
  exact GoodS_append (GoodS_append (GoodS_append (GoodS_append (GoodS_append
    (GoodS_append (by decide) (GoodS_natStr _)) (by decide))
    (GoodS_jsNumStr _)) (by decide)) (GoodS_escapeHtml line)) (by decide)

theorem GoodS_summaryRowsFrom : ∀ (y0 i : Nat) (lines : List String),
    GoodS (summaryRowsFrom y0 i lines)
  | _, _, [] => GoodS_empty
  | y0, i, line :: rest =>
    GoodS_append (GoodS_summaryRow y0 i line) (GoodS_summaryRowsFrom y0 (i + 1) rest)

theorem GoodS_statItem (x y : Nat) (value label : String) :
    GoodS (statItem x y value label) := by
  unfold statItem
  exact GoodS_append (GoodS_append (GoodS_append (GoodS_append (GoodS_append
    (GoodS_append (GoodS_append (GoodS_append (by decide) (GoodS_natStr x))
    (by decide)) (GoodS_natStr y)) (by decide)) (GoodS_escapeHtml value))
    (by decide)) (GoodS_escapeHtml label)) (by decide)

theorem GoodS_statsSection (sy : Nat) (st : SummaryStats) :
    GoodS (statsSection sy st) := by
  unfold statsSection
  exact GoodS_append (GoodS_append (GoodS_append (GoodS_append (GoodS_append
    (GoodS_append (by decide) (GoodS_natStr _)) (by decide))
    (GoodS_statItem _ _ _ _)) (GoodS_statItem _ _ _ _)) (GoodS_statItem _ _ _ _))
    (GoodS_statItem _ _ _ _)

theorem GoodS_projRow (y : Nat) (p : RecentProject) : GoodS (projRow y p) := by
  unfold projRow
  exact GoodS_append (GoodS_append (GoodS_append (GoodS_append (GoodS_append
    (GoodS_append (GoodS_append (GoodS_append (by decide) (GoodS_natStr _))
    (by decide)) (GoodS_escapeHtml _)) (by decide)) (GoodS_natStr _))
    (by decide)) (GoodS_escapeHtml _)) (by decide)

theorem GoodS_projRows : ∀ (y : Nat) (ps : List RecentProject), GoodS (projRows y ps)
  | _, [] => GoodS_empty
  | y, p :: rest => GoodS_append (GoodS_projRow y p) (GoodS_projRows (y + 22) rest)

theorem GoodS_projSection (py : Nat) (ps : List RecentProject) :
    GoodS (projSection py ps) := by
  unfold projSection
  split_ifs
  · exact GoodS_empty
  · exact GoodS_append (GoodS_append (GoodS_append (by decide) (GoodS_natStr _))
      (by decide)) (GoodS_projRows _ _)

theorem GoodS_achBadge (x : Nat) (a : String) : GoodS (achBadge x a) := by
  unfold achBadge
  exact GoodS_append (GoodS_append (GoodS_append (GoodS_append (GoodS_append
    (GoodS_append (GoodS_append (GoodS_append (by decide) (GoodS_natStr _))
    (by decide)) (GoodS_natStr _)) (by decide)) (GoodS_natStr _))
    (by decide)) (GoodS_escapeHtml _)) (by decide)

theorem GoodS_achBadges : ∀ (x : Nat) (l : List String), GoodS (achBadges x l)
  | _, [] => GoodS_empty
  | x, a :: rest => GoodS_append (GoodS_achBadge x a)
      (GoodS_achBadges (x + (a.length * 6 + 16) + 8) rest)

theorem GoodS_achSection (ay : Nat) (l : List String) : GoodS (achSection ay l) := by
  unfold achSection
  split_ifs
  · exact GoodS_empty
  · exact GoodS_append (GoodS_append (GoodS_append (GoodS_append (by decide)
      (GoodS_natStr _)) (by decide)) (GoodS_achBadges _ _)) (by decide)

theorem GoodS_activityCardBody (sd : ActivitySummary) : GoodS (activityCardBody sd) := by
  unfold activityCardBody
  exact GoodS_append (GoodS_append (GoodS_append (GoodS_append (GoodS_append
    (GoodS_append (GoodS_append (GoodS_cardFrame _)
      (GoodS_append (GoodS_append (by decide) (GoodS_escapeHtml _)) (by decide)))
    (GoodS_langSection _)) (GoodS_summaryRowsFrom _ _ _)) (GoodS_statsSection _ _))
    (GoodS_projSection _ _)) (GoodS_achSection _ _)) (by decide)

/-- When the trimmed string is a newline followed by text that starts with
`<` and ends with `>`, the trim removes exactly the newline. -/
theorem jsTrim_eq {s t : String} (hdat : s.data = '\n' :: t.data)
    (hh : ∃ m, t.data = '<' :: m) (hl : ∃ m, t.data = m ++ ['>']) :
    jsTrim s = t := by
  rcases hh with ⟨m1, hm1⟩
  rcases hl with ⟨m2, hm2⟩
  have h1 : t.data.dropWhile isJsWsCh = t.data := by
    rw [hm1]
    exact List.dropWhile_cons_of_neg (by decide)
  have h2 : t.data.reverse.dropWhile isJsWsCh = t.data.reverse := by
    rw [hm2, List.reverse_append, List.reverse_singleton, List.singleton_append]
    exact List.dropWhile_cons_of_neg (by decide)
  unfold jsTrim
  rw [hdat, List.dropWhile_cons_of_pos (by decide), h1, h2, List.reverse_reverse]

theorem head_append_ex {a : String} {b : String} {c : Char}
    (h : ∃ m, a.data = c :: m) : ∃ m, (a ++ b).data = c :: m := by
  rcases h with ⟨m, hm⟩
  exact ⟨m ++ b.data, by rw [str_data_append, hm]; rfl⟩

theorem last_append_ex (a : String) {b : String} {c : Char}
    (h : ∃ m, b.data = m ++ [c]) : ∃ m, (a ++ b).data = m ++ [c] := by
  rcases h with ⟨m, hm⟩
  exact ⟨a.data ++ m, by rw [str_data_append, hm, List.append_assoc]⟩

/-- The final `trim()` of the card removes exactly the leading newline of
the template. -/
theorem generateActivityCard_eq_body (sd : ActivitySummary) :
    generateActivityCard sd = activityCardBody sd := by
  unfold generateActivityCard
  apply jsTrim_eq
  · rw [str_data_append]
    rfl
  · unfold activityCardBody cardFrame
    repeat refine head_append_ex ?_
    exact ⟨_, rfl⟩
  · exact last_append_ex _ ⟨"\n</svg".data, rfl⟩

/-- **C9.**  For every summary whose display name contains `<script>`, the
rendered activity card (default options) never contains `<script>` — in
fact it never contains the character sequence `<sc` outside the fixed
template, which itself is scanner-clean — and the escaped form
`&lt;script&gt;` does appear in the output. -/
theorem C9_markup_escaping (sd : ActivitySummary)
    (h : "<script>".data <:+: sd.displayName.data) :
    ¬ ("<script>".data <:+: (generateActivityCard sd).data) ∧
    "&lt;script&gt;".data <:+: (generateActivityCard sd).data := by
  rw [generateActivityCard_eq_body]
  constructor
  · intro hcon
    have h3 : ['<', 's', 'c'] <:+: (activityCardBody sd).data :=
      List.IsInfix.trans ⟨[], ['r', 'i', 'p', 't', '>'], rfl⟩ hcon
    exact GoodS_no_sc (GoodS_activityCardBody sd) h3
  · have hne : ¬ (sd.displayName = "") := by
      intro hcon
      have hnil : sd.displayName.data = [] := by rw [hcon]
      rw [hnil] at h
      have := List.sublist_nil.mp h.sublist
      simp at this
    have hesc : "&lt;script&gt;".data <:+: (escapeHtml sd.displayName).data := by
      unfold escapeHtml
      rw [if_neg hne]
      show _ <:+: escapeHtmlL sd.displayName.data
      rw [← escapeHtmlL_script]
      exact escapeHtmlL_infix h
    have hmid : (escapeHtml sd.displayName).data <:+: (activityCardBody sd).data := by
      refine ⟨(cardFrame (cardHeight sd)).data ++ cardH1.data,
        cardH2.data ++ ((langSection sd.primaryLanguage).data ++
          ((summaryRowsFrom (cardY0 sd) 0 (cardLines sd)).data ++
            ((statsSection (cardSY sd) sd.stats).data ++
              ((projSection (cardPY sd) sd.recentProjects).data ++
                ((achSection (cardAY sd) sd.achievements).data ++
                  "\n</svg>".data))))), ?_⟩
      unfold activityCardBody
      simp only [str_data_append, List.append_assoc]
    exact List.IsInfix.trans hesc hmid

/-- Witness for C9: a display name `x<script>y`. -/
theorem C9_markup_escaping_witness :
    ("<script>".data <:+: ("x<script>y" : String).data) ∧
    (¬ ("<script>".data <:+: (generateActivityCard
        ⟨"u", "x<script>y", "a", "h", [], [], [], none, [], [], "", ⟨0, 0, 0, 0⟩⟩).data) ∧
      "&lt;script&gt;".data <:+: (generateActivityCard
        ⟨"u", "x<script>y", "a", "h", [], [], [], none, [], [], "", ⟨0, 0, 0, 0⟩⟩).data) :=
  ⟨by decide, C9_markup_escaping
    ⟨"u", "x<script>y", "a", "h", [], [], [], none, [], [], "", ⟨0, 0, 0, 0⟩⟩ (by decide)⟩

/-! ## C10: username validation in the service entry point (`api/card.js`) -/


/-- `[a-zA-Z0-9]`. -/
def isAlnumCh (c : Char) : Bool :=
  (97 ≤ c.toNat && c.toNat ≤ 122) || (65 ≤ c.toNat && c.toNat ≤ 90) ||
    (48 ≤ c.toNat && c.toNat ≤ 57)

/-- The repetition part of the username regex
`(?:[a-zA-Z0-9]|-(?=[a-zA-Z0-9])){0,38}` followed by `$`: at most `fuel`
rounds, each consuming an alphanumeric or a hyphen with an alphanumeric
right after it (the alternatives are disjoint on their first character, so
the backtracking regex accepts exactly what this acceptor does). -/
def tailMatch : Nat → List Char → Bool
  | _, [] => true
  | 0, _ :: _ => false
  | fuel + 1, c :: rest =>
    if isAlnumCh c then tailMatch fuel rest
    else if c = '-' then
      match rest with
      | [] => false
      | d :: _ => isAlnumCh d && tailMatch fuel rest
    else false

/-- `/^[a-zA-Z0-9](?:[a-zA-Z0-9]|-(?=[a-zA-Z0-9])){0,38}$/.test(username)`. -/
def usernameRegexAccepts (s : String) : Bool :=
  match s.data with
  | [] => false
  | c :: rest => isAlnumCh c && tailMatch 38 rest

/-- `themes[theme]` truthiness: the fixed set of exported themes. -/
def themeExists (t : String) : Bool :=
  t = "default" || t = "dark" || t = "radical" || t = "merko" || t = "gruvbox" ||
  t = "tokyonight" || t = "onedark" || t = "cobalt" || t = "synthwave" ||
  t = "highcontrast" || t = "dracula" || t = "monokai" || t = "vue" ||
  t = "vue-dark" || t = "github" || t = "github-dark" || t = "nord" ||
  t = "algolia" || t = "sunset" || t = "ocean"

/-- The request handler, reduced to what the validation claim observes: the
response status and whether the upstream fetch (`getCachedData`, which
calls the GitHub API) ran.  `username` is `none` when the query parameter
is absent; the `!username` guard also catches the empty string.  The
upstream oracle stands for the try-block (its status may be 200, 404 or
500); the card-rendering options do not affect validation. -/
def handlerOutcome (username : Option String) (theme : String)
    (upstream : String → Nat) : Nat × Bool :=
  match username with
  | none => (400, false)
  | some u =>
    if u = "" then (400, false)
    else if usernameRegexAccepts u = false then (400, false)
    else if themeExists theme = false then (400, false)
    else (upstream u, true)

/-- A violation of the GitHub login grammar as the claim enumerates it. -/
def violatesLoginGrammar (u : String) : Prop :=
  (∃ c ∈ u.data, ¬ (isAlnumCh c = true ∨ c = '-')) ∨
  (∃ m, u.data = '-' :: m) ∨
  (∃ m, u.data = m ++ ['-']) ∨
  (∃ a b, u.data = a ++ '-' :: '-' :: b) ∨
  39 < u.length

theorem tailMatch_le : ∀ (fuel : Nat) (l : List Char), tailMatch fuel l = true →
    l.length ≤ fuel
  | _, [], _ => by simp
  | 0, _ :: _, h => Bool.noConfusion (show false = true from h)
  | fuel + 1, c :: rest, h => by
    unfold tailMatch at h
    split_ifs at h with h1 h2
    · have := tailMatch_le fuel rest h
      simp only [List.length_cons]
      omega
    · cases rest with
      | nil => exact Bool.noConfusion (show false = true from h)
      | cons d r2 =>
        have h3 : (isAlnumCh d && tailMatch fuel (d :: r2)) = true := h
        rw [Bool.and_eq_true] at h3
        have := tailMatch_le fuel (d :: r2) h3.2
        simp only [List.length_cons] at *
        omega

theorem tailMatch_chars : ∀ (fuel : Nat) (l : List Char), tailMatch fuel l = true →
    ∀ c ∈ l, isAlnumCh c = true ∨ c = '-'
  | _, [], _, c, hc => by cases hc
  | 0, _ :: _, h, _, _ => Bool.noConfusion (show false = true from h)
  | fuel + 1, x :: rest, h, c, hc => by
    unfold tailMatch at h
    split_ifs at h with h1 h2
    · rcases List.mem_cons.mp hc with rfl | hc2
      · exact Or.inl h1
      · exact tailMatch_chars fuel rest h c hc2
    · rcases List.mem_cons.mp hc with rfl | hc2
      · exact Or.inr h2
      · cases rest with
        | nil => cases hc2
        | cons d r2 =>
          have h3 : (isAlnumCh d && tailMatch fuel (d :: r2)) = true := h
          rw [Bool.and_eq_true] at h3
          exact tailMatch_chars fuel (d :: r2) h3.2 c hc2

theorem tailMatch_dash : ∀ (fuel : Nat) (a : List Char) (l : List Char),
    tailMatch fuel l = true → ∀ (b : List Char), l = a ++ '-' :: b →
    ∃ d e, b = d :: e ∧ isAlnumCh d = true
  | fuel, [], l, h, b, heq => by
    rw [List.nil_append] at heq
    subst heq
    cases fuel with
    | zero => exact Bool.noConfusion (show false = true from h)
    | succ f =>
      cases b with
      | nil => exact Bool.noConfusion (show false = true from h)
      | cons d e =>
        have h3 : (isAlnumCh d && tailMatch f (d :: e)) = true := h
        rw [Bool.and_eq_true] at h3
        exact ⟨d, e, rfl, h3.1⟩
  | fuel, x :: a2, l, h, b, heq => by
    rw [List.cons_append] at heq
    subst heq
    cases fuel with
    | zero => exact Bool.noConfusion (show false = true from h)
    | succ f =>
      unfold tailMatch at h
      split_ifs at h with h1 h2
      · exact tailMatch_dash f a2 _ h b rfl
      · cases haa : a2 ++ '-' :: b with
        | nil => exact absurd haa (by simp)
        | cons d r2 =>
          rw [haa] at h
          have h3 : (isAlnumCh d && tailMatch f (d :: r2)) = true := h
          rw [Bool.and_eq_true] at h3
          exact tailMatch_dash f a2 (d :: r2) h3.2 b haa.symm

theorem accepts_no_violation {u : String} (hacc : usernameRegexAccepts u = true) :
    ¬ violatesLoginGrammar u := by
  unfold usernameRegexAccepts at hacc
  rcases hdat : u.data with _ | ⟨c, rest⟩
  · rw [hdat] at hacc
    exact absurd hacc (by decide)
  · rw [hdat] at hacc
    rw [Bool.and_eq_true] at hacc
    obtain ⟨hhead, htail⟩ := hacc
    intro hviol
    rcases hviol with ⟨d, hd, hbad⟩ | ⟨m, hm⟩ | ⟨m, hm⟩ | ⟨a, b, hab⟩ | hlen
    · rw [hdat] at hd
      rcases List.mem_cons.mp hd with rfl | hd2
      · exact hbad (Or.inl hhead)
      · exact hbad (tailMatch_chars 38 rest htail d hd2)
    · rw [hdat] at hm
      have hc : c = '-' := (List.cons.injEq _ _ _ _ ▸ hm).1
      rw [hc] at hhead
      exact absurd hhead (by decide)
    · rw [hdat] at hm
      cases m with
      | nil =>
        have hc : c = '-' := (List.cons.injEq _ _ _ _ ▸ hm.symm).1.symm
        rw [hc] at hhead
        exact absurd hhead (by decide)
      | cons x m2 =>
        rw [List.cons_append] at hm
        have hrest : rest = m2 ++ '-' :: [] := by
          have := (List.cons.injEq _ _ _ _ ▸ hm).2
          simpa using this
        obtain ⟨d, e, hde, _⟩ := tailMatch_dash 38 m2 rest htail [] hrest
        cases hde
    · rw [hdat] at hab
      cases a with
      | nil =>
        have hc : c = '-' := (List.cons.injEq _ _ _ _ ▸ hab).1
        rw [hc] at hhead
        exact absurd hhead (by decide)
      | cons x a2 =>
        rw [List.cons_append] at hab
        have hrest : rest = a2 ++ '-' :: ('-' :: b) :=
          (List.cons.injEq _ _ _ _ ▸ hab).2
        obtain ⟨d, e, hde, hdal⟩ := tailMatch_dash 38 a2 rest htail ('-' :: b) hrest
        have hd : d = '-' := (List.cons.injEq _ _ _ _ ▸ hde).1.symm
        rw [hd] at hdal
        exact absurd hdal (by decide)
    · have hlen2 : u.length = rest.length + 1 := by
        rw [show u.length = u.data.length from rfl, hdat]
        simp
      have := tailMatch_le 38 rest htail
      omega

/-- **C10.**  For every username string violating the GitHub login grammar
(a character outside alphanumerics and hyphens, a leading, trailing or
doubled hyphen, or length greater than 39), the handler responds with
status 400 and never invokes the upstream fetch: the regex test precedes
the try-block, and any violating string fails the regex. -/
theorem C10_username_validation (username : String) (theme : String)
    (upstream : String → Nat) (h : violatesLoginGrammar username) :
    handlerOutcome (some username) theme upstream = (400, false) := by
  have hstep : handlerOutcome (some username) theme upstream =
      (if username = "" then (400, false)
       else if usernameRegexAccepts username = false then (400, false)
       else if themeExists theme = false then (400, false)
       else (upstream username, true)) := rfl
  rw [hstep]
  by_cases he : username = ""
  · rw [if_pos he]
  · rw [if_neg he]
    have hrej : usernameRegexAccepts username = false := by
      cases hacc : usernameRegexAccepts username
      · rfl
      · exact absurd h (accepts_no_violation hacc)
    rw [if_pos hrej]

/-- Witness for C10: the leading-hyphen username `-abc`. -/
theorem C10_username_validation_witness :
    violatesLoginGrammar "-abc" ∧
    handlerOutcome (some "-abc") "default" (fun _ => 200) = (400, false) :=
  ⟨Or.inr (Or.inl ⟨['a', 'b', 'c'], rfl⟩),
   C10_username_validation "-abc" "default" (fun _ => 200)
     (Or.inr (Or.inl ⟨['a', 'b', 'c'], rfl⟩))⟩
